import Mathlib

/-!
Verification of the Share-of-Voice metric engine of the
`atomberg-sov-analysis` repository (files `src/analysis/sov_calculator.py`,
`src/analysis/sentiment_analyzer.py`, `src/utils/data_processor.py`).

The Python code is shallowly embedded: numbers (Python int/float) are
modelled as `ℚ`, Python lists as `List`, Python dicts as ordered
association lists.  Posts consumed by the aggregator are modelled as a
record carrying exactly the fields `SoVCalculator` reads, with the same
`.get` defaults the code uses.
-/

/-! ## Data model for the aggregator (`sov_calculator.py`)

A post as seen by `SoVCalculator`: every field read by the calculator
appears with the default value the corresponding `post.get(key, default)`
call uses (`views`/`likes`/… default to 0, `position` to 10, `page` to 1,
`mentions_atomberg` to False, `mentions_competitors` to []). -/
structure Post where
  id : String := ""
  platform : String := ""
  mentions_atomberg : Bool := false
  mentions_competitors : List String := []
  views : ℚ := 0
  likes : ℚ := 0
  comments : ℚ := 0
  retweets : ℚ := 0
  replies : ℚ := 0
  quotes : ℚ := 0
  author_followers : ℚ := 0
  position : ℚ := 10
  page : ℚ := 1
deriving DecidableEq

/-- Corpus shape: keyword → platform → ordered posts (Python dicts are
ordered, hence association lists). -/
abbrev Corpus := List (String × List (String × List Post))

/-- The competitor list from `SoVCalculator.__init__`. -/
def COMPETITORS : List String :=
  ["Havells", "Orient", "Bajaj", "Crompton", "Usha", "Symphony", "Voltas"]

/-! ## Ordered-dict helpers (Python dict semantics on association lists) -/

/-- Python `d.get(k)` / `d[k]` read: first (only) binding of a key. -/
def dlookup {α : Type} : List (String × α) → String → Option α
  | [], _ => none
  | (k, v) :: t, key => if k = key then some v else dlookup t key

/-- Python `d[k] = v`: overwrite in place if the key exists (keeping its
position), otherwise append at the end (dict keys are unique, so replacing
the first binding is replacing the only one). -/
def setKey {α : Type} : List (String × α) → String → α → List (String × α)
  | [], k, v => [(k, v)]
  | p :: t, k, v => if p.1 = k then (k, v) :: t else p :: setKey t k v

/-- Last element of a list, if any. -/
def lastOf? {α : Type} : List α → Option α
  | [] => none
  | [a] => some a
  | _ :: b :: t => lastOf? (b :: t)

/-- First-seen-order deduplication, accumulator form (models the key order
of a Python `defaultdict` that is bumped once per occurrence). -/
def dfAux (seen : List String) : List String → List String
  | [] => []
  | x :: t => if x ∈ seen then dfAux seen t else x :: dfAux (seen ++ [x]) t

def dedupFirst (l : List String) : List String := dfAux [] l

/-! ## `SoVCalculator._get_post_engagement` and `_get_post_visibility` -/

def get_post_engagement (p : Post) : ℚ :=
  if p.platform = "youtube" then
    p.views * 0.1 + p.likes * 1.0 + p.comments * 2.0
  else if p.platform = "twitter" then
    p.retweets * 3.0 + p.likes * 1.0 + p.replies * 2.0 + p.quotes * 2.5
  else if p.platform = "google" then
    max (11 - p.position) 1 * 10
  else
    1.0

def get_post_visibility (p : Post) : ℚ :=
  let engagement := get_post_engagement p
  if p.platform = "youtube" then
    p.views * 0.01 + engagement * 0.1
  else if p.platform = "twitter" then
    p.author_followers * 0.001 + engagement * 0.1
  else if p.platform = "google" then
    (11 - p.position) ^ 2 * (1 / p.page)
  else
    engagement

/-! ## `SoVCalculator._calculate_mention_share` -/

def atombergMentionCount (posts : List Post) : Nat :=
  (posts.filter (fun p => p.mentions_atomberg)).length

/-- All competitor-mention occurrences, in traversal order (the stream the
`defaultdict` loops consume). -/
def flatMentions (posts : List Post) : List String :=
  posts.flatMap (fun p => p.mentions_competitors)

/-- The keys of the per-competitor `defaultdict`s, in first-touch order. -/
def mentionedCompetitors (posts : List Post) : List String :=
  dedupFirst (flatMentions posts)

def competitorMentionCount (posts : List Post) (c : String) : Nat :=
  (flatMentions posts).count c

structure MentionShare where
  atomberg : ℚ
  competitors : List (String × ℚ)
  total_mentions : Nat
  atomberg_mentions : Option Nat
deriving DecidableEq

def calculate_mention_share (posts : List Post) : MentionShare :=
  let a := atombergMentionCount posts
  let names := mentionedCompetitors posts
  let total := a + (names.map (fun c => competitorMentionCount posts c)).sum
  if total = 0 then ⟨0, [], 0, none⟩
  else
    ⟨(a : ℚ) / (total : ℚ),
     names.map (fun c => (c, (competitorMentionCount posts c : ℚ) / (total : ℚ))),
     total, some a⟩

/-! ## `SoVCalculator._calculate_engagement_share` -/

def atombergEngagementSum (posts : List Post) : ℚ :=
  ((posts.filter (fun p => p.mentions_atomberg)).map get_post_engagement).sum

/-- Engagement credited to one competitor: the loop adds the full post
engagement once per occurrence of the competitor in `mentions_competitors`. -/
def competitorEngagementSum (posts : List Post) (c : String) : ℚ :=
  (posts.map (fun p => (p.mentions_competitors.count c : ℚ) * get_post_engagement p)).sum

structure EngagementShare where
  atomberg : ℚ
  competitors : List (String × ℚ)
  total_engagement : ℚ
  atomberg_engagement : Option ℚ
deriving DecidableEq

def calculate_engagement_share (posts : List Post) : EngagementShare :=
  let a := atombergEngagementSum posts
  let names := mentionedCompetitors posts
  let total := a + (names.map (fun c => competitorEngagementSum posts c)).sum
  if total = 0 then ⟨0, [], 0, none⟩
  else
    ⟨a / total,
     names.map (fun c => (c, competitorEngagementSum posts c / total)),
     total, some a⟩

/-! ## `SoVCalculator._calculate_sentiment_share`

`sentiment_data.get(post_id, {}).get('sentiment', 'neutral')` is modelled by
an association-list lookup defaulting to `"neutral"`.  Labels are assumed to
be among the three the analyzer produces (any other label would raise a
`KeyError` in the Python dict increment). -/

def sentimentOf (smap : List (String × String)) (p : Post) : String :=
  (dlookup smap p.id).getD "neutral"

def atombergSentimentCount (posts : List Post) (smap : List (String × String))
    (label : String) : Nat :=
  (posts.filter (fun p => p.mentions_atomberg && sentimentOf smap p == label)).length

def competitorSentimentCount (posts : List Post) (smap : List (String × String))
    (c label : String) : Nat :=
  (posts.map (fun p =>
    if sentimentOf smap p = label then p.mentions_competitors.count c else 0)).sum

structure SentimentShare where
  positive : ℚ
  atomberg_sentiment_distribution : List (String × ℚ)
  competitor_sentiment_distribution : Option (List (String × (Nat × Nat × Nat)))
  total_positive_mentions : Option Nat
  atomberg_positive_mentions : Option Nat
deriving DecidableEq

def calculate_sentiment_share (posts : List Post) (smap : List (String × String)) :
    SentimentShare :=
  let aPos := atombergSentimentCount posts smap "positive"
  let aNeg := atombergSentimentCount posts smap "negative"
  let aNeu := atombergSentimentCount posts smap "neutral"
  let names := mentionedCompetitors posts
  let totalPos := aPos + (names.map (fun c => competitorSentimentCount posts smap c "positive")).sum
  let share : ℚ := if totalPos = 0 then 0 else (aPos : ℚ) / (totalPos : ℚ)
  let aTot := aPos + aNeg + aNeu
  let dist : List (String × ℚ) :=
    if 0 < aTot then
      [("positive", (aPos : ℚ) / (aTot : ℚ)),
       ("negative", (aNeg : ℚ) / (aTot : ℚ)),
       ("neutral", (aNeu : ℚ) / (aTot : ℚ))]
    else []
  ⟨share, dist,
   some (names.map (fun c =>
     (c, (competitorSentimentCount posts smap c "positive",
          competitorSentimentCount posts smap c "negative",
          competitorSentimentCount posts smap c "neutral")))),
   some totalPos, some aPos⟩

/-! ## `SoVCalculator._calculate_platform_breakdown` -/

/-- The per-bucket ratio of `_calculate_platform_breakdown` (including the
`if not posts` early continue that stores 0.0). -/
def bucketSov (posts : List Post) : ℚ :=
  if posts = [] then 0
  else
    let a := atombergMentionCount posts
    let total := a + (posts.map (fun p => p.mentions_competitors.length)).sum
    if 0 < total then (a : ℚ) / (total : ℚ) else 0

def calculate_platform_breakdown (corpus : Corpus) : List (String × ℚ) :=
  corpus.foldl
    (fun acc kp => kp.2.foldl (fun a2 pp => setKey a2 pp.1 (bucketSov pp.2)) acc) []

/-- The (keyword, platform) buckets in iteration order, forgetting keyword
names (the inner loop never uses `keyword`). -/
def allBuckets (corpus : Corpus) : List (String × List Post) :=
  corpus.flatMap (fun kp => kp.2)

/-! ## `SoVCalculator._calculate_visibility_score` -/

def calculate_visibility_score (posts : List Post) : ℚ :=
  if posts = [] then 0
  else
    let total := (posts.map get_post_visibility).sum
    let atom := ((posts.filter (fun p => p.mentions_atomberg)).map get_post_visibility).sum
    if total = 0 then 0 else atom / total

/-! ## `SoVCalculator._calculate_competitive_positioning` and market rank -/

def competitorMeans (posts : List Post) : List (String × ℚ) :=
  COMPETITORS.filterMap (fun c =>
    let cp := posts.filter (fun p => c ∈ p.mentions_competitors)
    if cp.length = 0 then none
    else some (c, (cp.map get_post_engagement).sum / (cp.length : ℚ)))

def atombergAvgEngagement (posts : List Post) : ℚ :=
  let ap := posts.filter (fun p => p.mentions_atomberg)
  if ap.length = 0 then 0 else (ap.map get_post_engagement).sum / (ap.length : ℚ)

/-- Python `list.index`: index of the first occurrence, if present. -/
def pyIndex (l : List ℚ) (a : ℚ) : Option Nat :=
  match l with
  | [] => none
  | b :: t => if b = a then some 0 else (pyIndex t a).map (fun i => i + 1)

/-- `_calculate_market_rank`: descending sort of competitor means plus the
focal mean, then first-occurrence index + 1; the `except ValueError` branch
returns the list length. -/
def calculate_market_rank (a : ℚ) (scores : List ℚ) : Nat :=
  let sorted := List.insertionSort (fun x y => x ≥ y) (scores ++ [a])
  match pyIndex sorted a with
  | some i => i + 1
  | none => sorted.length

structure Positioning where
  direct_comparisons : Nat
  atomberg_avg_engagement : ℚ
  competitor_avg_engagement : List (String × ℚ)
  market_position_rank : Nat
deriving DecidableEq

def calculate_competitive_positioning (posts : List Post) : Positioning :=
  ⟨(posts.filter (fun p => p.mentions_atomberg && !p.mentions_competitors.isEmpty)).length,
   atombergAvgEngagement posts,
   competitorMeans posts,
   calculate_market_rank (atombergAvgEngagement posts)
     ((competitorMeans posts).map (fun q => q.2))⟩

/-! ## `SoVCalculator.calculate_sov` -/

def calculate_overall_sov (m : MentionShare) (e : EngagementShare) (s : SentimentShare) : ℚ :=
  m.atomberg * 0.4 + e.atomberg * 0.4 + s.positive * 0.2

structure SovMetrics where
  overall_sov : ℚ
  mention_share : MentionShare
  engagement_share : EngagementShare
  sentiment_share : SentimentShare
  platform_breakdown : List (String × ℚ)
  visibility_score : ℚ
  competitive_positioning : Option Positioning
  total_posts_analyzed : Nat
  atomberg_mentions : Nat
  competitor_mentions : Nat
deriving DecidableEq

/-- `_empty_sov_metrics` (keys absent from the empty dicts are `none`). -/
def empty_sov_metrics : SovMetrics :=
  ⟨0, ⟨0, [], 0, none⟩, ⟨0, [], 0, none⟩, ⟨0, [], none, none, none⟩, [], 0, none, 0, 0, 0⟩

def flattenPosts (corpus : Corpus) : List Post :=
  corpus.flatMap (fun kp => kp.2.flatMap (fun pp => pp.2))

def calculate_sov (corpus : Corpus) (smap : List (String × String)) : SovMetrics :=
  let all := flattenPosts corpus
  if all = [] then empty_sov_metrics
  else
    let m := calculate_mention_share all
    let e := calculate_engagement_share all
    let s := calculate_sentiment_share all smap
    ⟨calculate_overall_sov m e s, m, e, s,
     calculate_platform_breakdown corpus,
     calculate_visibility_score all,
     some (calculate_competitive_positioning all),
     all.length,
     atombergMentionCount all,
     (all.map (fun p => p.mentions_competitors.length)).sum⟩

/-! ## Concrete inputs used by witnesses / counterexamples -/

def demoPostA : Post := { id := "a", platform := "youtube", mentions_atomberg := true }

def demoPostB : Post :=
  { id := "b", platform := "youtube", mentions_competitors := ["Havells"] }

def demoPosts : List Post := [demoPostA, demoPostB]

/-- Two keywords sharing the platform key "youtube". -/
def c3corpus : Corpus :=
  [("kw1", [("youtube", [demoPostA])]), ("kw2", [("youtube", [demoPostB])])]

def c7post : Post := { id := "v1", platform := "youtube", views := 5000, likes := 100, comments := 25 }

/-! # Data processor (`src/utils/data_processor.py`)

Text is modelled as `List Char`.  Each `re.sub` pass of `_clean_text` is
embedded as a structurally recursive scan with the same observable
behaviour as the (ASCII) regex pass, as argued in each doc comment. -/

/-- Python regex `\s` (ASCII whitespace). -/
def isPySpace (c : Char) : Bool :=
  c == ' ' || c == '\t' || c == '\n' || c == '\r' || c == '\x0b' || c == '\x0c'

/-- Python regex `\w` (ASCII word character). -/
def isWordChar (c : Char) : Bool := c.isAlphanum || c == '_'

/-- `str.lower()` (ASCII). -/
def pyLower (s : List Char) : List Char := s.map Char.toLower

/-- Does the text start with a match of `http\S+` or `www\S+`?  (The branch
`https\S+` is subsumed by the first: `https…` starts with `http` and the
greedy `\S+` covers the rest.) -/
def isUrlStart : List Char → Bool
  | 'h' :: 't' :: 't' :: 'p' :: d :: _ => !isPySpace d
  | 'w' :: 'w' :: 'w' :: d :: _ => !isPySpace d
  | _ => false

/-- `re.sub(r'http\S+|www\S+|https\S+', '', text)`: left-to-right scan; on a
match the literal plus the greedy non-space tail is consumed (`skip = true`
while inside the consumed `\S+` run), and scanning resumes after the match. -/
def ruAux : Bool → List Char → List Char
  | _, [] => []
  | true, c :: cs => if isPySpace c then c :: ruAux false cs else ruAux true cs
  | false, 'h' :: 't' :: 't' :: 'p' :: d :: rest =>
      if isPySpace d then 'h' :: ruAux false ('t' :: 't' :: 'p' :: d :: rest)
      else ruAux true rest
  | false, 'w' :: 'w' :: 'w' :: d :: rest =>
      if isPySpace d then 'w' :: ruAux false ('w' :: 'w' :: d :: rest)
      else ruAux true rest
  | false, c :: cs => c :: ruAux false cs

def removeUrls (s : List Char) : List Char := ruAux false s

/-- Some element equal to '@' that is not the last element. -/
def hasAtWithSucc : List Char → Bool
  | [] => false
  | [_] => false
  | c :: d :: cs => c == '@' || hasAtWithSucc (d :: cs)

/-- A maximal non-space token matches `\S+@\S+` iff it has an '@' at index
≥1 followed by at least one more character; the match then starts at the
token start (leftmost `\S+`) and the greedy trailing `\S+` consumes the
whole token. -/
def tokenIsEmail : List Char → Bool
  | [] => false
  | _ :: rest => hasAtWithSucc rest

def emitTok (buf tail : List Char) : List Char :=
  if tokenIsEmail buf then tail else buf ++ tail

def reAux (buf : List Char) : List Char → List Char
  | [] => emitTok buf []
  | c :: cs =>
    if isPySpace c then emitTok buf (c :: reAux [] cs) else reAux (buf ++ [c]) cs

/-- `re.sub(r'\S+@\S+', '', text)`: drop each whitespace-delimited token
that matches (whitespace separators are kept). -/
def removeEmails (s : List Char) : List Char := reAux [] s

def headIsWord : List Char → Bool
  | [] => false
  | d :: _ => isWordChar d

/-- `re.sub(r'[@#](\w+)', r'\1', text)`: delete each '@'/'#' immediately
followed by a word character; the captured `\w+` run is kept verbatim.  A
sigil can never occur inside the kept run (sigils are not word characters),
so this char-by-char scan agrees with the regex's resume-after-match
behaviour. -/
def stripSigils : List Char → List Char
  | [] => []
  | c :: cs =>
    if (c == '@' || c == '#') && headIsWord cs then stripSigils cs
    else c :: stripSigils cs

/-- `re.sub(r'[m]{2,}', 'm', text)` for a punctuation mark `m` (used with
'!' and '?'): right fold, a mark is dropped when the collapsed tail already
starts with the same mark. -/
def collapseDoubles (mark : Char) : List Char → List Char
  | [] => []
  | c :: cs =>
    let r := collapseDoubles mark cs
    if c == mark && (r.head? == some mark) then r else c :: r

/-- `re.sub(r'[.]{3,}', '...', text)`: runs of ≥3 dots become exactly three,
runs of ≤2 are kept (right fold capping runs at three). -/
def collapseDots : List Char → List Char
  | [] => []
  | c :: cs =>
    let r := collapseDots cs
    if c == '.' && (r.take 3 == ['.', '.', '.']) then r else c :: r

/-- `re.sub(r'\s+', ' ', text)`: right fold merging a whitespace character
into a following collapsed run. -/
def collapseWs : List Char → List Char
  | [] => []
  | c :: cs =>
    let r := collapseWs cs
    if isPySpace c then (if r.head? == some ' ' then r else ' ' :: r) else c :: r

/-- `str.strip()`, leading side. -/
def trimL (s : List Char) : List Char := s.dropWhile isPySpace

/-- `str.strip()`, trailing side (right fold dropping trailing whitespace). -/
def trimR : List Char → List Char
  | [] => []
  | c :: cs =>
    let r := trimR cs
    if r.isEmpty && isPySpace c then [] else c :: r

def pyStrip (s : List Char) : List Char := trimR (trimL s)

/-- `re.sub(r'\s+', ' ', text).strip()` (both occurrences in `_clean_text`). -/
def collapseTrim (s : List Char) : List Char := pyStrip (collapseWs s)

/-- The character class kept by `re.sub(r'[^\w\s\.\!\?\,\;:\-]', ' ', text)`. -/
def allowedFinal (c : Char) : Bool :=
  isWordChar c || isPySpace c || c == '.' || c == '!' || c == '?' ||
    c == ',' || c == ';' || c == ':' || c == '-'

def stripSpecial (s : List Char) : List Char :=
  s.map (fun c => if allowedFinal c then c else ' ')

/-- `DataProcessor._clean_text`: lower-case, remove URLs, remove emails,
unwrap @/# sigils, collapse `!!`/`??`/long dot runs, collapse whitespace and
strip, blank out special characters, collapse whitespace and strip again.
On empty input every stage is the identity, matching the early return. -/
def clean_text (s : List Char) : List Char :=
  collapseTrim (stripSpecial (collapseTrim (collapseDots (collapseDoubles '?'
    (collapseDoubles '!' (stripSigils (removeEmails (removeUrls (pyLower s)))))))))

/-- Does the cleaned text still contain `http`/`www` directly followed by a
non-space character (i.e. a position where the URL pass would fire)? -/
def hasUrlPattern : List Char → Bool
  | [] => false
  | c :: cs => isUrlStart (c :: cs) || hasUrlPattern cs

/-! ## Brand/keyword/theme detection (`data_processor.py`) -/

def matchesAt : List Char → List Char → Bool
  | [], _ => true
  | _ :: _, [] => false
  | p :: ps, c :: cs => p == c && matchesAt ps cs

/-- Python substring containment `pat in s`. -/
def containsSub : List Char → List Char → Bool
  | [], pat => pat.isEmpty
  | c :: t, pat => matchesAt pat (c :: t) || containsSub t pat

def brand_variations : List (String × List String) :=
  [("atomberg", ["atomberg", "atom berg", "atomburg", "atombergs"]),
   ("havells", ["havells", "havell", "havels"]),
   ("orient", ["orient", "oriental"]),
   ("bajaj", ["bajaj", "bajaj electricals"]),
   ("crompton", ["crompton", "crompton greaves"]),
   ("usha", ["usha", "usha international"]),
   ("symphony", ["symphony", "symphony air"]),
   ("voltas", ["voltas", "voltas air"])]

def lowerStr (s : String) : String := String.mk (pyLower s.toList)

/-- `_detect_brand_mentions`: any variation of the brand occurring as a
substring of the lower-cased text. -/
def detect_brand_mentions (text : List Char) (brand : String) : Bool :=
  if text.isEmpty then false
  else
    ((dlookup brand_variations (lowerStr brand)).getD [lowerStr brand]).any
      (fun v => containsSub (pyLower text) v.toList)

/-- Python `str.title()` for the single-word lower-case brand keys. -/
def pyTitle (s : String) : String :=
  match s.toList with
  | [] => ""
  | c :: t => String.mk (c.toUpper :: t)

/-- `_detect_competitor_mentions`: every non-focal brand with a matching
variation, title-cased, in table order (the inner `break` only stops
checking further variations of the same brand). -/
def detect_competitor_mentions (text : List Char) : List String :=
  if text.isEmpty then []
  else
    (brand_variations.filter (fun bv => !(bv.1 == "atomberg"))).filterMap
      (fun bv =>
        if bv.2.any (fun v => containsSub (pyLower text) v.toList)
        then some (pyTitle bv.1) else none)

def relevant_keywords : List String :=
  ["smart", "intelligent", "iot", "wifi", "bluetooth", "app", "remote", "control",
   "energy", "efficient", "bldc", "motor", "speed", "timer", "alexa", "google",
   "home", "automation", "ceiling", "fan", "quiet", "silent", "noise", "review",
   "rating", "price", "cost", "buy", "purchase", "install", "setup", "quality",
   "durable", "warranty", "service", "support", "compare", "vs", "versus",
   "best", "top", "recommended"]

def stop_words : List String :=
  ["the", "a", "an", "and", "or", "but", "in", "on", "at", "to", "for", "of",
   "with", "by", "is", "are", "was", "were", "be", "been", "being", "have",
   "has", "had", "do", "does", "did", "will", "would", "could", "should"]

def splitWsAux (buf : List Char) : List Char → List (List Char)
  | [] => if buf.isEmpty then [] else [buf]
  | c :: cs =>
    if isPySpace c then
      (if buf.isEmpty then splitWsAux [] cs else buf :: splitWsAux [] cs)
    else splitWsAux (buf ++ [c]) cs

/-- Python `str.split()` (split on whitespace runs, no empty tokens). -/
def splitWs (s : List Char) : List (List Char) := splitWsAux [] s

def kwAux (found : List String) : List (List Char) → List String
  | [] => found
  | w :: ws =>
    let cw := String.mk (w.filter isWordChar)
    if cw ∈ relevant_keywords ∧ cw ∉ stop_words ∧ cw ∉ found
    then kwAux (found ++ [cw]) ws
    else kwAux found ws

/-- `_extract_keywords`: split the lower-cased text, strip non-word
characters from each token, keep domain keywords that are not stop words,
first-seen order, deduplicated. -/
def extract_keywords (text : List Char) : List String :=
  if text.isEmpty then [] else kwAux [] (splitWs (pyLower text))

def theme_patterns : List (String × List String) :=
  [("review", ["review", "rating", "stars", "feedback", "opinion", "experience"]),
   ("comparison", ["vs", "versus", "compare", "comparison", "better", "best"]),
   ("technical", ["bldc", "motor", "rpm", "watts", "energy", "efficiency", "iot"]),
   ("installation", ["install", "setup", "mounting", "wiring", "assembly"]),
   ("purchase", ["buy", "price", "cost", "deal", "discount", "sale", "offer"]),
   ("support", ["service", "support", "warranty", "customer", "help"]),
   ("smart_features", ["smart", "app", "wifi", "bluetooth", "alexa", "google", "remote"]),
   ("performance", ["speed", "quiet", "silent", "air", "flow", "cooling", "noise"])]

/-- `_identify_themes`: a theme applies when any of its keywords occurs as a
substring of the lower-cased text. -/
def identify_themes (text : List Char) : List String :=
  if text.isEmpty then []
  else
    theme_patterns.filterMap (fun tp =>
      if tp.2.any (fun kw => containsSub (pyLower text) kw.toList)
      then some tp.1 else none)

/-! ## Raw post dicts and `_process_single_post` -/

/-- Python values as stored in a raw post dict (the variants the processor
encounters; arithmetic on a non-numeric value raises `TypeError`, modelled
as failure of `asNum`). -/
inductive PyVal where
  | vStr (s : String)
  | vNum (q : ℚ)
  | vBool (b : Bool)
  | vList (l : List String)
  | vNone
deriving DecidableEq

abbrev PDict := List (String × PyVal)

def dGet (d : PDict) (k : String) (dflt : PyVal) : PyVal := (dlookup d k).getD dflt

def dSet (d : PDict) (k : String) (v : PyVal) : PDict := setKey d k v

def dErase (d : PDict) (k : String) : PDict := d.filter (fun p => !(p.1 == k))

/-- Python truthiness of the modelled values. -/
def truthy : PyVal → Bool
  | .vStr s => !s.isEmpty
  | .vNum q => !(q == 0)
  | .vBool b => b
  | .vList l => !l.isEmpty
  | .vNone => false

/-- Numeric read; Python booleans are ints, anything else raises `TypeError`
when used in arithmetic/comparison, modelled as `none`. -/
def asNum : PyVal → Option ℚ
  | .vNum q => some q
  | .vBool b => some (if b then 1 else 0)
  | _ => none

def asStrList : PyVal → Option (List String)
  | .vList l => some l
  | _ => none

/-- Python `str(x)` for the modelled values (the exact rendering of
non-string values inside the f-string fallback is irrelevant to every
claim; strings, the only case exercised, are exact). -/
def pyStrOf : PyVal → String
  | .vStr s => s
  | .vNum q => if q.den = 1 then toString q.num
               else toString q.num ++ "/" ++ toString q.den
  | .vBool b => if b then "True" else "False"
  | .vList l => toString l
  | .vNone => "None"

/-- Lines 75–83 of `_process_single_post`: a truthy `text_content` is used
directly (it must be a string, else `.lower()` inside `_clean_text` raises,
modelled as `none`); otherwise `f"{title} {description} {text}".strip()` is
built from the raw fields (an f-string stringifies anything, so this path
cannot fail).  The result is passed through `_clean_text`. -/
def build_text_content (post : PDict) : Option (List Char) :=
  let tc := dGet post "text_content" (.vStr "")
  if truthy tc then
    match tc with
    | .vStr s => some (clean_text s.toList)
    | _ => none
  else
    let title := pyStrOf (dGet post "title" (.vStr ""))
    let desc := pyStrOf (dGet post "description" (.vStr ""))
    let txt := pyStrOf (dGet post "text" (.vStr ""))
    some (clean_text (pyStrip (title ++ " " ++ desc ++ " " ++ txt).toList))

/-- `_standardize_engagement_metrics` on the post dict; `post.update(...)`
adds `total_engagement`, `engagement_rate`, `reach_estimate` in that (dict
literal) order. -/
def standardize_engagement_metrics (post : PDict) : Option PDict :=
  let platform := dGet post "platform" (.vStr "")
  if platform == .vStr "youtube" then
    match asNum (dGet post "views" (.vNum 0)), asNum (dGet post "likes" (.vNum 0)),
        asNum (dGet post "comments" (.vNum 0)) with
    | some views, some likes, some comments =>
      some (dSet (dSet (dSet post
        "total_engagement" (.vNum (likes + comments)))
        "engagement_rate" (.vNum (if 0 < views then (likes + comments) / views else 0)))
        "reach_estimate" (.vNum views))
    | _, _, _ => none
  else if platform == .vStr "twitter" then
    match asNum (dGet post "retweets" (.vNum 0)), asNum (dGet post "likes" (.vNum 0)),
        asNum (dGet post "replies" (.vNum 0)), asNum (dGet post "quotes" (.vNum 0)),
        asNum (dGet post "author_followers" (.vNum 0)) with
    | some retweets, some likes, some replies, some quotes, some followers =>
      some (dSet (dSet (dSet post
        "total_engagement" (.vNum (retweets + likes + replies + quotes)))
        "engagement_rate" (.vNum (if 0 < followers
          then (retweets + likes + replies + quotes) / followers else 0)))
        "reach_estimate" (.vNum (max followers ((retweets + likes + replies + quotes) * 10))))
    | _, _, _, _, _ => none
  else if platform == .vStr "google" then
    match asNum (dGet post "position" (.vNum 10)), asNum (dGet post "page" (.vNum 1)) with
    | some position, some page =>
      some (dSet (dSet (dSet post
        "total_engagement" (.vNum (max (100 - position * 5 - page * 20) 1)))
        "engagement_rate" (.vNum (min 0.1 (max (100 - position * 5 - page * 20) 1 / 1000))))
        "reach_estimate" (.vNum (max (100 - position * 5 - page * 20) 1 * 10)))
    | _, _ => none
  else
    some (dSet (dSet (dSet post
      "total_engagement" (.vNum 0)) "engagement_rate" (.vNum 0)) "reach_estimate" (.vNum 0))

/-- `_calculate_quality_score`: mean of the applicable sub-scores (the theme
factor always applies, the platform factor only for google). -/
def calculate_quality_score (post : PDict) : Option ℚ :=
  match asNum (dGet post "word_count" (.vNum 0)),
      asNum (dGet post "engagement_rate" (.vNum 0)),
      asStrList (dGet post "themes" (.vList [])),
      asStrList (dGet post "keywords" (.vList [])) with
  | some wc, some rate, some themes, some keywords =>
    let s1 : ℚ := if 0 < wc then
        (if 50 ≤ wc ∧ wc ≤ 200 then 1
         else if (20 ≤ wc ∧ wc < 50) ∨ (200 < wc ∧ wc ≤ 300) then 0.7
         else if 10 < wc then 0.3 else 0) else 0
    let f1 : ℕ := if 0 < wc then 1 else 0
    let s2 : ℚ := if 0 < rate then min rate 0.1 / 0.1 else 0
    let f2 : ℕ := if 0 < rate then 1 else 0
    let s3 : ℚ := ((themes.filter
      (fun t => t ∈ ["review", "comparison", "technical", "smart_features", "performance"])).length : ℚ) / 5
    let s4 : ℚ := if keywords.length ≠ 0 then min ((keywords.length : ℚ) / 10) 1 else 0
    let f4 : ℕ := if keywords.length ≠ 0 then 1 else 0
    if dGet post "platform" (.vStr "") == .vStr "google" then
      match asNum (dGet post "position" (.vNum 10)) with
      | some position =>
        let s5 : ℚ := if position ≤ 3 then 1 else if position ≤ 10 then 0.7 else 0.3
        some ((s1 + s2 + s3 + s4 + s5) / ((max (f1 + f2 + 1 + f4 + 1) 1 : ℕ) : ℚ))
      | none => none
    else
      some ((s1 + s2 + s3 + s4) / ((max (f1 + f2 + 1 + f4) 1 : ℕ) : ℚ))
  | _, _, _, _ => none

/-! ## The heap model of `_process_single_post` -/

/-- Heap of post dicts: `cells` is indexed by address; `alloc` models
`dict.copy()` (a fresh object), `write` an in-place mutation of one object. -/
structure Store where
  cells : List PDict
deriving DecidableEq

def Store.read (st : Store) (a : ℕ) : PDict := st.cells.getD a []

def Store.write (st : Store) (a : ℕ) (d : PDict) : Store := ⟨st.cells.set a d⟩

def Store.alloc (st : Store) (d : PDict) : Store × ℕ :=
  (⟨st.cells ++ [d]⟩, st.cells.length)

/-- `_process_single_post` on the heap: `post.copy()` allocates a fresh
dict at `q`; every subsequent assignment — including the `post.update`
inside `_standardize_engagement_metrics` — writes to `q` only.  The `now`
string stands for `datetime.now().isoformat()`.  Brand/keyword/theme
detection reads `processed_post['text_content']`, whose value is exactly
the `cleaned` text just written.  An internal exception (`None` return)
aborts after possibly partial writes to the copy. -/
def process_single_post_heap (now : String) (st : Store) (p : ℕ) : Store × Option ℕ :=
  let orig := st.read p
  let stq := st.alloc orig
  let st1 := stq.1
  let q := stq.2
  match build_text_content orig with
  | none => (st1, none)
  | some cleaned =>
    let st2 := st1.write q (dSet (st1.read q) "text_content" (.vStr (String.mk cleaned)))
    let st3 := st2.write q (dSet (st2.read q) "processed_at" (.vStr now))
    let st4 := st3.write q (dSet (st3.read q) "mentions_atomberg"
      (.vBool (detect_brand_mentions cleaned "atomberg")))
    let st5 := st4.write q (dSet (st4.read q) "mentions_competitors"
      (.vList (detect_competitor_mentions cleaned)))
    let st6 := st5.write q (dSet (st5.read q) "keywords"
      (.vList (extract_keywords cleaned)))
    let st7 := st6.write q (dSet (st6.read q) "themes"
      (.vList (identify_themes cleaned)))
    match standardize_engagement_metrics (st7.read q) with
    | none => (st7, none)
    | some d8 =>
      let st8 := st7.write q d8
      let st9 := st8.write q (dSet (st8.read q) "content_length"
        (.vNum (cleaned.length : ℚ)))
      let st10 := st9.write q (dSet (st9.read q) "word_count"
        (.vNum ((splitWs cleaned).length : ℚ)))
      match calculate_quality_score (st10.read q) with
      | none => (st10, none)
      | some qs =>
        (st10.write q (dSet (st10.read q) "quality_score" (.vNum qs)), some q)

/-- `_process_single_post` as a function on dicts (run on a one-cell heap
and read the copy back). -/
def process_single_post (now : String) (d : PDict) : Option PDict :=
  match process_single_post_heap now ⟨[d]⟩ 0 with
  | (st, some q) => some (st.read q)
  | (_, none) => none

/-! ## `process_search_results` -/

abbrev RawCorpus := List (String × List (String × List PDict))

/-- The inner per-bucket loop: append each successfully processed post,
silently drop failures. -/
def processPosts (now : String) (posts : List PDict) : List PDict :=
  posts.foldl (fun acc p =>
    match process_single_post now p with
    | some enriched => acc ++ [enriched]
    | none => acc) []

/-- `DataProcessor.process_search_results` (dict insertion order preserved;
a single `now` is threaded for the whole batch — the real code samples the
clock per post, which no claim depends on). -/
def process_search_results (now : String) (raw : RawCorpus) : RawCorpus :=
  raw.foldl (fun acc kp =>
    acc ++ [(kp.1, kp.2.foldl (fun a2 pp => a2 ++ [(pp.1, processPosts now pp.2)]) [])]) []

/-! ## Concrete processor inputs for witnesses / counterexamples -/

def c4post : PDict :=
  [("id", .vStr "p1"), ("platform", .vStr "youtube"),
   ("title", .vStr "atomberg fan"), ("views", .vNum 100),
   ("likes", .vNum 10), ("comments", .vNum 2)]

def c7dict : PDict :=
  [("platform", .vStr "youtube"), ("views", .vNum 5000),
   ("likes", .vNum 100), ("comments", .vNum 25)]


/-! # Sentiment analyzer (`src/analysis/sentiment_analyzer.py`)

Only the built-in lexicon backend is embedded: `analyze_text` falls through
to `_analyze_with_lexicon` whenever neither VADER nor TextBlob (external
dependencies) is available. -/

def positive_words : List String :=
  ["excellent", "amazing", "great", "fantastic", "wonderful", "awesome",
   "outstanding", "superb", "brilliant", "perfect", "best", "love", "like",
   "good", "nice", "happy", "satisfied", "recommend", "impressed", "quality",
   "efficient", "smooth", "quiet", "reliable", "durable", "value", "worth",
   "smart", "innovative", "advanced", "modern", "sleek", "stylish"]

def negative_words : List String :=
  ["terrible", "awful", "bad", "horrible", "disappointing", "worst", "hate",
   "dislike", "poor", "cheap", "broken", "defective", "useless", "waste",
   "problem", "issue", "trouble", "difficult", "hard", "complicated", "noisy",
   "loud", "slow", "unreliable", "fragile", "expensive", "overpriced"]

def negation_words : List String :=
  ["not", "no", "never", "none", "nobody", "nothing", "neither", "nowhere",
   "hardly", "scarcely", "barely", "don\x27t", "doesn\x27t", "didn\x27t",
   "won\x27t", "wouldn\x27t", "shouldn\x27t", "couldn\x27t", "can\x27t",
   "cannot"]

/-- The sigil pass of the sentiment cleaner, `re.sub(r'[@#]\w+', '', text)`:
delete a sigil together with its word-character run (`skip = true` while
inside the deleted run; a fresh sigil directly after the run starts a new
match, as under the regex's resume-after-match scanning). -/
def rsAux : Bool → List Char → List Char
  | _, [] => []
  | skip, c :: cs =>
    if skip && isWordChar c then rsAux true cs
    else if (c == '@' || c == '#') && headIsWord cs then rsAux true cs
    else c :: rsAux false cs

def removeSigilTokens (s : List Char) : List Char := rsAux false s

/-- The character class kept by `re.sub(r'[^\w\s\.\!\?\,\;]', '', text)`
(note: deletion, not blanking, and no ':'/'-' here). -/
def allowedSent (c : Char) : Bool :=
  isWordChar c || isPySpace c || c == '.' || c == '!' || c == '?' ||
    c == ',' || c == ';'

/-- `SentimentAnalyzer._clean_text`: remove URLs, emails and @/# tokens,
collapse whitespace and strip, then delete the remaining special
characters.  No lower-casing here — the lexicon scorer lower-cases on its
own. -/
def sentiment_clean_text (s : List Char) : List Char :=
  (collapseTrim (removeSigilTokens (removeEmails (removeUrls s)))).filter allowedSent

structure LexResult where
  sentiment : String
  confidence : ℚ
  positive_score : ℚ
  negative_score : ℚ
  neutral_score : ℚ
deriving DecidableEq

/-- The scoring loop of `_analyze_with_lexicon`: `i` is the enumeration
index, `prev` the previous word (`words[i-1]`), `negCtx` the negation flag,
`p`/`n` the running positive/negative counts.  A negation word sets the
flag and skips scoring (`continue`); otherwise the flag is first cleared
when `i > 0`, `words[i-1]` is not a negation word and `i > 2`; then lexicon
membership bumps a count, swapped while the flag is set. -/
def lexAux (i : ℕ) (prev : Option String) (negCtx : Bool) (p n : ℕ) :
    List String → ℕ × ℕ
  | [] => (p, n)
  | w :: ws =>
    if w ∈ negation_words then lexAux (i + 1) (some w) true p n ws
    else
      let reset : Bool := decide (0 < i) && (match prev with
        | some pw => decide (pw ∉ negation_words)
        | none => true) && decide (2 < i)
      let ctx := if reset then false else negCtx
      if w ∈ positive_words then
        (if ctx then lexAux (i + 1) (some w) ctx p (n + 1) ws
         else lexAux (i + 1) (some w) ctx (p + 1) n ws)
      else if w ∈ negative_words then
        (if ctx then lexAux (i + 1) (some w) ctx (p + 1) n ws
         else lexAux (i + 1) (some w) ctx p (n + 1) ws)
      else lexAux (i + 1) (some w) ctx p n ws

/-- The raw (positive, negative) counts of `_analyze_with_lexicon`. -/
def lexCounts (words : List String) : ℕ × ℕ := lexAux 0 none false 0 0 words

/-- `_analyze_with_lexicon` (the returned `positive_score`/`negative_score`
are the counts normalized by `max(total, 1)`, and `neutral_score` is
`1 - total/max(len(words), 1)`). -/
def analyze_with_lexicon (text : List Char) : LexResult :=
  let words := (splitWs (pyLower text)).map (fun w => String.mk w)
  let pn := lexCounts words
  let total := pn.1 + pn.2
  let sentiment := if total = 0 then "neutral"
    else if pn.2 < pn.1 then "positive"
    else if pn.1 < pn.2 then "negative"
    else "neutral"
  let confidence : ℚ := if total = 0 then 0
    else if pn.2 < pn.1 then (pn.1 : ℚ) / (total : ℚ)
    else if pn.1 < pn.2 then (pn.2 : ℚ) / (total : ℚ)
    else 0.5
  ⟨sentiment, confidence,
   (pn.1 : ℚ) / ((max total 1 : ℕ) : ℚ),
   (pn.2 : ℚ) / ((max total 1 : ℕ) : ℚ),
   1 - ((total : ℚ) / ((max words.length 1 : ℕ) : ℚ))⟩

/-- `_empty_sentiment_result`. -/
def empty_sentiment_result : LexResult := ⟨"neutral", 0, 0, 0, 1⟩

/-- `analyze_text` with only the built-in backend available: empty or
whitespace-only text short-circuits, otherwise clean then lexicon-score. -/
def analyze_text_lexicon (text : List Char) : LexResult :=
  if text.isEmpty || (pyStrip text).isEmpty then empty_sentiment_result
  else analyze_with_lexicon (sentiment_clean_text text)

/-- The input of the sentiment-determinism scenario. -/
def c2text : List Char := "excellent and quiet, not noisy".toList


/-! ## Invariant predicates used to settle cleaning idempotence -/

/-- No two adjacent occurrences of `a`. -/
def noAdj (a : Char) : List Char → Bool
  | c :: d :: t => !(c == a && d == a) && noAdj a (d :: t)
  | _ => true

/-- No four consecutive dots (hence no run of ≥ 4). -/
def noFourDots : List Char → Bool
  | c1 :: c2 :: c3 :: c4 :: t =>
      !(c1 == '.' && c2 == '.' && c3 == '.' && c4 == '.')
        && noFourDots (c2 :: c3 :: c4 :: t)
  | _ => true

/-- Every whitespace character is a plain space. -/
def spacesArePlain (s : List Char) : Bool :=
  s.all (fun c => !isPySpace c || c == ' ')

def headNotWs : List Char → Bool
  | [] => true
  | c :: _ => !isPySpace c

def lastNotWs : List Char → Bool
  | [] => true
  | [c] => !isPySpace c
  | _ :: d :: t => lastNotWs (d :: t)

/-! # Supporting lemmas -/

theorem dfAux_mem (y : String) :
    ∀ (l seen : List String), y ∈ dfAux seen l ↔ (y ∈ l ∧ y ∉ seen) := by
  intro l
  induction l with
  | nil => intro seen; simp [dfAux]
  | cons x t ih =>
    intro seen
    by_cases hx : x ∈ seen
    · simp only [dfAux, if_pos hx, ih]
      constructor
      · rintro ⟨hy, hs⟩
        exact ⟨List.mem_cons_of_mem _ hy, hs⟩
      · rintro ⟨hy, hs⟩
        rcases List.mem_cons.mp hy with h | h
        · exact absurd (h ▸ hx) hs
        · exact ⟨h, hs⟩
    · rw [dfAux, if_neg hx]
      simp only [List.mem_cons, ih, List.mem_append, List.mem_singleton,
        List.not_mem_nil, or_false, not_or]
      constructor
      · rintro (h | ⟨hy, hs1, hs2⟩)
        · exact ⟨Or.inl h, h ▸ hx⟩
        · exact ⟨Or.inr hy, hs1⟩
      · rintro ⟨hy | hy, hs⟩
        · exact Or.inl hy
        · by_cases hyx : y = x
          · exact Or.inl hyx
          · exact Or.inr ⟨hy, hs, hyx⟩

theorem dfAux_nodup : ∀ (l seen : List String), (dfAux seen l).Nodup := by
  intro l
  induction l with
  | nil => intro seen; simp [dfAux]
  | cons x t ih =>
    intro seen
    by_cases hx : x ∈ seen
    · simpa [dfAux, if_pos hx] using ih seen
    · simp only [dfAux, if_neg hx]
      refine List.nodup_cons.mpr ⟨?_, ih _⟩
      intro hc
      have := (dfAux_mem x t (seen ++ [x])).mp hc
      simp at this

theorem dedupFirst_mem (y : String) (l : List String) :
    y ∈ dedupFirst l ↔ y ∈ l := by
  unfold dedupFirst
  rw [dfAux_mem]
  simp

theorem dedupFirst_nodup (l : List String) : (dedupFirst l).Nodup :=
  dfAux_nodup l []

theorem filter_ne_length (c : String) :
    ∀ L : List String, (L.filter (fun y => !(y == c))).length + L.count c = L.length := by
  intro L
  induction L with
  | nil => simp
  | cons a t ih =>
    by_cases h : a = c
    · rw [h]
      have h1 : List.count c (c :: t) = List.count c t + 1 := by
        simp [List.count_cons]
      have h2 : (c :: t).filter (fun y => !(y == c)) = t.filter (fun y => !(y == c)) := by
        simp [List.filter_cons]
      rw [h1, h2]
      simp only [List.length_cons]
      omega
    · have hb : (a == c) = false := beq_eq_false_iff_ne.mpr h
      have h1 : List.count c (a :: t) = List.count c t := by
        simp [List.count_cons, hb]
      have h2 : (a :: t).filter (fun y => !(y == c)) = a :: t.filter (fun y => !(y == c)) := by
        simp [List.filter_cons, hb]
      rw [h1, h2]
      simp only [List.length_cons]
      omega

/-- Summing the full-list occurrence counts over any duplicate-free cover of
a list gives that list's length. -/
theorem nodup_cover_count_sum :
    ∀ (S : List String), S.Nodup → ∀ (L : List String), (∀ y, y ∈ S ↔ y ∈ L) →
      (S.map (fun c => L.count c)).sum = L.length := by
  intro S
  induction S with
  | nil =>
    intro _ L hcov
    have : L = [] := by
      cases L with
      | nil => rfl
      | cons a t => exact absurd ((hcov a).mpr (List.mem_cons_self a t)) (by simp)
    simp [this]
  | cons c S ih =>
    intro hnd L hcov
    have hcS : c ∉ S := (List.nodup_cons.mp hnd).1
    have hndS : S.Nodup := (List.nodup_cons.mp hnd).2
    have hcovS : ∀ y, y ∈ S ↔ y ∈ L.filter (fun y => !(y == c)) := by
      intro y
      rw [List.mem_filter]
      constructor
      · intro hy
        have hyc : y ≠ c := fun h => hcS (h ▸ hy)
        exact ⟨(hcov y).mp (List.mem_cons_of_mem _ hy), by simp [hyc]⟩
      · rintro ⟨hyL, hyb⟩
        have hyc : y ≠ c := by simpa using hyb
        rcases List.mem_cons.mp ((hcov y).mpr hyL) with h | h
        · exact absurd h hyc
        · exact h
    have hcounts : ∀ y ∈ S, L.count y = (L.filter (fun z => !(z == c))).count y := by
      intro y hy
      have hyc : y ≠ c := fun h => hcS (h ▸ hy)
      rw [List.count_filter (by simp [hyc])]
    have hmap : S.map (fun y => L.count y)
        = S.map (fun y => (L.filter (fun z => !(z == c))).count y) :=
      List.map_congr_left hcounts
    have hlen := filter_ne_length c L
    rw [List.map_cons, List.sum_cons, hmap, ih hndS _ hcovS]
    omega

theorem list_sum_nat_div (f : String → ℕ) (d : ℚ) :
    ∀ l : List String, (l.map (fun c => (f c : ℚ) / d)).sum = (((l.map f).sum : ℕ) : ℚ) / d := by
  intro l
  induction l with
  | nil => simp
  | cons c t ih =>
    simp only [List.map_cons, List.sum_cons, ih]
    push_cast
    rw [add_div]

theorem snd_map_pair (g : String → ℚ) :
    ∀ l : List String,
      ((l.map (fun c => (c, g c))).map (fun q => q.2)).sum = (l.map g).sum := by
  intro l
  induction l with
  | nil => rfl
  | cons c t ih => simp only [List.map_cons, List.sum_cons, ih]

/-- Claim C1: for every corpus of posts, the mention share of the focal brand
lies in [0, 1], and whenever `total_mentions > 0` the focal share plus the
sum of all competitor shares equals 1 (exact in ℚ, hence within any
floating-point tolerance). -/
theorem mention_share_bounds (posts : List Post) :
    0 ≤ (calculate_mention_share posts).atomberg ∧
    (calculate_mention_share posts).atomberg ≤ 1 ∧
    (0 < (calculate_mention_share posts).total_mentions →
      (calculate_mention_share posts).atomberg
        + ((calculate_mention_share posts).competitors.map (fun q => q.2)).sum = 1) := by
  simp only [calculate_mention_share]
  by_cases h : atombergMentionCount posts
      + ((mentionedCompetitors posts).map (fun c => competitorMentionCount posts c)).sum = 0
  · rw [if_pos h]
    refine ⟨le_refl 0, by norm_num, ?_⟩
    intro h0
    exact absurd h0 (by simp)
  · rw [if_neg h]
    have hT : 0 < atombergMentionCount posts
        + ((mentionedCompetitors posts).map (fun c => competitorMentionCount posts c)).sum :=
      Nat.pos_of_ne_zero h
    have hTQ : (0 : ℚ) < ((atombergMentionCount posts
        + ((mentionedCompetitors posts).map (fun c => competitorMentionCount posts c)).sum : ℕ) : ℚ) := by
      exact_mod_cast hT
    refine ⟨div_nonneg (by positivity) hTQ.le, ?_, ?_⟩
    · rw [div_le_one hTQ]
      exact_mod_cast Nat.le_add_right _ _
    · intro _
      rw [snd_map_pair, list_sum_nat_div, div_add_div_same,
        div_eq_one_iff_eq (ne_of_gt hTQ)]
      push_cast
      ring

theorem mention_share_bounds_witness :
    0 < (calculate_mention_share demoPosts).total_mentions ∧
    (calculate_mention_share demoPosts).atomberg
      + ((calculate_mention_share demoPosts).competitors.map (fun q => q.2)).sum = 1 :=
  ⟨by decide, (mention_share_bounds demoPosts).2.2 (by decide)⟩

/-! ### Claim C3 machinery: dict-overwrite behaviour of the platform breakdown -/

theorem dlookup_setKey_self {α : Type} (k : String) (v : α) :
    ∀ d : List (String × α), dlookup (setKey d k v) k = some v := by
  intro d
  induction d with
  | nil => simp [setKey, dlookup]
  | cons p t ih =>
    by_cases hp : p.1 = k
    · simp [setKey, hp, dlookup]
    · simp [setKey, hp, dlookup, ih]

theorem dlookup_setKey_ne {α : Type} (k k2 : String) (v : α) (hne : k2 ≠ k) :
    ∀ d : List (String × α), dlookup (setKey d k v) k2 = dlookup d k2 := by
  intro d
  induction d with
  | nil => simp [setKey, dlookup, Ne.symm hne]
  | cons p t ih =>
    by_cases hp : p.1 = k
    · have h2 : p.1 ≠ k2 := fun hh => hne ((hp.symm.trans hh).symm)
      simp only [setKey, if_pos hp, dlookup, if_neg (Ne.symm hne), if_neg h2]
    · simp only [setKey, if_neg hp, dlookup, ih]

theorem lastOf?_cons_ne_none {α : Type} : ∀ (xs : List α) (x : α), lastOf? (x :: xs) ≠ none := by
  intro xs
  induction xs with
  | nil => intro x; simp [lastOf?]
  | cons y ys ih => intro x; simpa [lastOf?] using ih y

/-- Looking up a platform in the breakdown fold: the last bucket with that
platform key wins, otherwise the accumulator's binding is returned. -/
theorem breakdown_foldl_lookup (pf : String) :
    ∀ (bs : List (String × List Post)) (d : List (String × ℚ)),
      dlookup (bs.foldl (fun a2 pp => setKey a2 pp.1 (bucketSov pp.2)) d) pf
        = match lastOf? (bs.filter (fun b => b.1 == pf)) with
          | some b => some (bucketSov b.2)
          | none => dlookup d pf := by
  intro bs
  induction bs with
  | nil => intro d; simp [lastOf?]
  | cons b t ih =>
    intro d
    rw [List.foldl_cons, ih]
    by_cases hb : b.1 = pf
    · rw [List.filter_cons, if_pos (by simpa using hb)]
      cases hft : t.filter (fun q => q.1 == pf) with
      | nil =>
        show dlookup (setKey d b.1 (bucketSov b.2)) pf = some (bucketSov b.2)
        rw [hb]
        exact dlookup_setKey_self pf (bucketSov b.2) d
      | cons x xs =>
        show (match lastOf? (x :: xs) with
          | some q => some (bucketSov q.2)
          | none => dlookup (setKey d b.1 (bucketSov b.2)) pf)
          = match lastOf? (b :: x :: xs) with
            | some q => some (bucketSov q.2)
            | none => dlookup d pf
        have hcc : lastOf? (b :: x :: xs) = lastOf? (x :: xs) := rfl
        rw [hcc]
        cases hx : lastOf? (x :: xs) with
        | some z => rfl
        | none => exact absurd hx (lastOf?_cons_ne_none xs x)
    · rw [List.filter_cons, if_neg (by simpa using hb)]
      have hd : dlookup (setKey d b.1 (bucketSov b.2)) pf = dlookup d pf :=
        dlookup_setKey_ne b.1 pf (bucketSov b.2) (fun hh => hb hh.symm) d
      cases hl : lastOf? (t.filter (fun q => q.1 == pf)) with
      | none => exact hd
      | some z => rfl

theorem flatMentions_length :
    ∀ posts : List Post,
      (posts.map (fun p => p.mentions_competitors.length)).sum = (flatMentions posts).length := by
  intro posts
  induction posts with
  | nil => simp [flatMentions]
  | cons p t ih =>
    simp only [List.map_cons, List.sum_cons, flatMentions, List.flatMap_cons,
      List.length_append] at ih ⊢
    omega

theorem mentioned_count_sum (posts : List Post) :
    ((mentionedCompetitors posts).map (fun c => competitorMentionCount posts c)).sum
      = (flatMentions posts).length := by
  have h := nodup_cover_count_sum (dedupFirst (flatMentions posts))
    (dedupFirst_nodup _) (flatMentions posts)
    (fun y => dedupFirst_mem y _)
  simpa [mentionedCompetitors, competitorMentionCount] using h

theorem bucketSov_eq_mention_share (posts : List Post) :
    bucketSov posts = (calculate_mention_share posts).atomberg := by
  simp only [bucketSov, calculate_mention_share]
  by_cases hp : posts = []
  · subst hp
    simp [atombergMentionCount, mentionedCompetitors, flatMentions, dedupFirst, dfAux]
  · rw [if_neg hp, mentioned_count_sum, flatMentions_length]
    rcases Nat.eq_zero_or_pos (atombergMentionCount posts + (flatMentions posts).length) with h | h
    · rw [h]
      simp
    · rw [if_pos h, if_neg (Nat.pos_iff_ne_zero.mp h)]

/-- Claim C3 (amended): each (keyword, platform) bucket gets the
mention-share-style ratio of its own posts (0.0 for an empty or
mention-free bucket), but the returned mapping is keyed by platform alone:
for each platform the reported value is that of the LAST keyword's bucket in
iteration order — buckets of earlier keywords with the same platform are
overwritten, not reported independently. -/
theorem platform_breakdown_amended :
    (∀ (corpus : Corpus) (pf : String),
      dlookup (calculate_platform_breakdown corpus) pf
        = match lastOf? ((allBuckets corpus).filter (fun b => b.1 == pf)) with
          | some b => some (bucketSov b.2)
          | none => none) ∧
    (∀ posts : List Post, bucketSov posts = (calculate_mention_share posts).atomberg) := by
  constructor
  · intro corpus pf
    have hfuse : ∀ (cs : Corpus) (d : List (String × ℚ)),
        cs.foldl (fun acc kp => kp.2.foldl (fun a2 pp => setKey a2 pp.1 (bucketSov pp.2)) acc) d
          = (cs.flatMap (fun kp => kp.2)).foldl
              (fun a2 pp => setKey a2 pp.1 (bucketSov pp.2)) d := by
      intro cs
      induction cs with
      | nil => intro d; simp
      | cons kp t ih =>
        intro d
        simp only [List.foldl_cons, List.flatMap_cons, List.foldl_append]
        exact ih _
    simp only [calculate_platform_breakdown, allBuckets]
    rw [hfuse, breakdown_foldl_lookup]
    cases lastOf? ((corpus.flatMap (fun kp => kp.2)).filter (fun b => b.1 == pf)) with
    | none => rfl
    | some z => rfl
  · exact bucketSov_eq_mention_share

/-- Claim C3 counterexample: with two keywords sharing the platform key
"youtube", the first keyword's bucket has ratio 1 but the returned breakdown
maps "youtube" to the second keyword's ratio 0 — the buckets are not
reported independently. -/
theorem platform_breakdown_counterexample :
    bucketSov [demoPostA] = 1 ∧
    bucketSov [demoPostB] = 0 ∧
    calculate_platform_breakdown c3corpus = [("youtube", 0)] := by
  have h1 : bucketSov [demoPostA] = 1 := by
    simp [bucketSov, atombergMentionCount, demoPostA]
  have h2 : bucketSov [demoPostB] = 0 := by
    simp [bucketSov, atombergMentionCount, demoPostB]
  refine ⟨h1, h2, ?_⟩
  simp [calculate_platform_breakdown, c3corpus, setKey, h1, h2]

/-- Claim C5: on a corpus whose flattened post list is empty (in particular
`calculate({}, {})`), the aggregator returns the documented zero/empty
defaults for every metric and raises nothing; no numeric field is
null/undefined. -/
theorem empty_corpus_defaults (corpus : Corpus) (smap : List (String × String))
    (h : flattenPosts corpus = []) :
    calculate_sov corpus smap = empty_sov_metrics ∧
    (calculate_sov corpus smap).overall_sov = 0 ∧
    (calculate_sov corpus smap).total_posts_analyzed = 0 ∧
    (calculate_sov corpus smap).mention_share = ⟨0, [], 0, none⟩ ∧
    (calculate_sov corpus smap).engagement_share = ⟨0, [], 0, none⟩ ∧
    (calculate_sov corpus smap).sentiment_share = ⟨0, [], none, none, none⟩ ∧
    (calculate_sov corpus smap).platform_breakdown = [] ∧
    (calculate_sov corpus smap).visibility_score = 0 ∧
    (calculate_sov corpus smap).atomberg_mentions = 0 ∧
    (calculate_sov corpus smap).competitor_mentions = 0 := by
  have he : calculate_sov corpus smap = empty_sov_metrics := by
    simp only [calculate_sov]
    rw [if_pos h]
  rw [he]
  exact ⟨rfl, rfl, rfl, rfl, rfl, rfl, rfl, rfl, rfl, rfl⟩

theorem empty_corpus_defaults_witness :
    flattenPosts [] = [] ∧ calculate_sov [] [] = empty_sov_metrics :=
  ⟨rfl, (empty_corpus_defaults [] [] rfl).1⟩

/-! ### Claim C6 machinery: the market rank counts strictly better means -/

theorem pyIndex_sorted (a : ℚ) :
    ∀ l : List ℚ, l.Sorted (fun x y => x ≥ y) → a ∈ l →
      pyIndex l a = some (l.countP (fun x => decide (a < x))) := by
  intro l
  induction l with
  | nil => intro _ hm; simp at hm
  | cons b t ih =>
    intro hs hm
    have hrel : ∀ x ∈ t, b ≥ x := List.rel_of_sorted_cons hs
    have hst : t.Sorted (fun x y => x ≥ y) := (List.sorted_cons.mp hs).2
    by_cases hba : b = a
    · subst hba
      have hc0 : t.countP (fun x => decide (b < x)) = 0 := by
        rw [List.countP_eq_zero]
        intro x hx
        simp only [decide_eq_true_eq]
        exact not_lt.mpr (hrel x hx)
      simp [pyIndex, List.countP_cons, hc0]
    · have hmt : a ∈ t := by
        rcases List.mem_cons.mp hm with h | h
        · exact absurd h.symm hba
        · exact h
      have hab : a < b := lt_of_le_of_ne (hrel a hmt) (fun hh => hba hh.symm)
      have hd : decide (a < b) = true := decide_eq_true hab
      simp [pyIndex, hba, ih hst hmt, List.countP_cons, hd, Nat.add_comm]

theorem market_rank_counts (a : ℚ) (scores : List ℚ) :
    calculate_market_rank a scores = 1 + scores.countP (fun x => decide (a < x)) := by
  have hperm := List.perm_insertionSort (fun x y : ℚ => x ≥ y) (scores ++ [a])
  have hsort := List.sorted_insertionSort (fun x y : ℚ => x ≥ y) (scores ++ [a])
  have hmem : a ∈ List.insertionSort (fun x y : ℚ => x ≥ y) (scores ++ [a]) :=
    hperm.mem_iff.mpr (by simp)
  have hidx := pyIndex_sorted a _ hsort hmem
  have hcnt := hperm.countP_eq (fun x => decide (a < x))
  simp only [calculate_market_rank, hidx]
  rw [hcnt, List.countP_append]
  simp [List.countP_cons]
  omega

/-- Claim C6: the market-position rank equals 1 plus the number of
competitors whose mean post-engagement strictly exceeds the focal mean
(equivalently, the first-occurrence position of the focal value in a
descending sort); in particular focal 650 against competitor means
{500, 800} gives rank 2. -/
theorem market_rank_spec :
    (∀ posts : List Post,
      (calculate_competitive_positioning posts).market_position_rank
        = 1 + ((competitorMeans posts).map (fun q => q.2)).countP
            (fun m => decide (atombergAvgEngagement posts < m))) ∧
    calculate_market_rank 650 [500, 800] = 2 := by
  constructor
  · intro posts
    simp only [calculate_competitive_positioning]
    exact market_rank_counts _ _
  · rw [market_rank_counts]
    norm_num [List.countP_cons, List.countP_nil]

/-! ### Claims C9/C10/C4/C7: the data processor -/

theorem store_read_write_ne (st : Store) (a b : ℕ) (d : PDict) (h : a ≠ b) :
    (st.write b d).read a = st.read a := by
  simp only [Store.read, Store.write, List.getD_eq_getElem?_getD]
  rw [List.getElem?_set_ne (by omega)]

theorem store_read_alloc (st : Store) (d : PDict) (p : ℕ) (hp : p < st.cells.length) :
    (st.alloc d).1.read p = st.read p := by
  simp only [Store.read, Store.alloc, List.getD_eq_getElem?_getD]
  rw [List.getElem?_append_left hp]

/-- Claim C10: per-post enrichment never mutates the caller's raw post
record: `post.copy()` allocates a fresh cell and every write of
`_process_single_post` (and of `_standardize_engagement_metrics` inside it)
targets that copy, so the original post's cell is unchanged whatever the
outcome (success or per-post failure). -/
theorem enrichment_frames_input (now : String) (st : Store) (p : ℕ)
    (hp : p < st.cells.length) :
    ((process_single_post_heap now st p).1).read p = st.read p := by
  have hq : p ≠ st.cells.length := Nat.ne_of_lt hp
  have halloc : ∀ d0 : PDict, ((st.alloc d0).1).read p = st.read p :=
    fun d0 => store_read_alloc st d0 p hp
  have hwr : ∀ (st0 : Store) (d0 : PDict),
      (st0.write ((st.alloc (st.read p)).2) d0).read p = st0.read p := by
    intro st0 d0
    apply store_read_write_ne
    simpa [Store.alloc] using hq
  simp only [process_single_post_heap]
  split
  · exact halloc _
  · split
    · simp only [hwr, halloc]
    · split
      · simp only [hwr, halloc]
      · simp only [hwr, halloc]

theorem enrichment_frames_input_witness :
    0 < (Store.cells ⟨[c4post]⟩).length ∧
    ((process_single_post_heap "2025-01-01T00:00:00" ⟨[c4post]⟩ 0).1).read 0
      = Store.read ⟨[c4post]⟩ 0 :=
  ⟨by decide, enrichment_frames_input "2025-01-01T00:00:00" ⟨[c4post]⟩ 0 (by decide)⟩

theorem foldl_append_map {α β : Type} (f : α → β) :
    ∀ (l : List α) (acc : List β), l.foldl (fun a x => a ++ [f x]) acc = acc ++ l.map f := by
  intro l
  induction l with
  | nil => intro acc; simp
  | cons x t ih => intro acc; rw [List.foldl_cons, ih]; simp

theorem processPosts_filterMap (now : String) :
    ∀ posts : List PDict,
      processPosts now posts = posts.filterMap (process_single_post now) := by
  have haux : ∀ (posts : List PDict) (acc : List PDict),
      posts.foldl (fun acc p => match process_single_post now p with
        | some enriched => acc ++ [enriched] | none => acc) acc
        = acc ++ posts.filterMap (process_single_post now) := by
    intro posts
    induction posts with
    | nil => intro acc; simp
    | cons p t ih =>
      intro acc
      rw [List.foldl_cons, List.filterMap_cons]
      cases h : process_single_post now p with
      | none => rw [ih]
      | some q => rw [ih, List.append_assoc]; rfl
  intro posts
  simpa [processPosts] using haux posts []

/-- Claim C9: batch normalization isolates per-post failures.  For every
corpus, each (keyword, platform) bucket of the output is exactly the list
of successfully enriched posts of that bucket in input order (failed posts
are dropped, siblings and other buckets are untouched), and the batch is a
total function — one bad record never aborts it. -/
theorem process_search_results_isolates (now : String) (raw : RawCorpus) :
    process_search_results now raw
      = raw.map (fun kp => (kp.1, kp.2.map (fun pp =>
          (pp.1, pp.2.filterMap (process_single_post now))))) := by
  have houter := foldl_append_map
    (fun kp : String × List (String × List PDict) =>
      (kp.1, kp.2.foldl (fun a2 pp => a2 ++ [(pp.1, processPosts now pp.2)]) [])) raw []
  simp only [process_search_results]
  rw [houter, List.nil_append]
  apply List.map_congr_left
  intro kp _
  have hinner := foldl_append_map
    (fun pp : String × List PDict => (pp.1, processPosts now pp.2)) kp.2 []
  rw [hinner, List.nil_append]
  apply congrArg (fun l => (kp.1, l))
  apply List.map_congr_left
  intro pp _
  rw [processPosts_filterMap]

/-- Claim C7: a youtube post with views=5000, likes=100, comments=25 gets
standardized `engagement_rate = (100+25)/5000 = 0.025`, and the
aggregator's "post engagement" scalar for it is
`5000*0.1 + 100*1.0 + 25*2.0 = 650`. -/
theorem engagement_formula_exact :
    (standardize_engagement_metrics c7dict).map (fun d => dGet d "engagement_rate" (.vNum 0))
      = some (.vNum 0.025) ∧
    ((100 : ℚ) + 25) / 5000 = 0.025 ∧
    get_post_engagement c7post = 650 ∧
    (5000 : ℚ) * 0.1 + 100 * 1.0 + 25 * 2.0 = 650 := by
  refine ⟨?_, by norm_num, ?_, by norm_num⟩
  · have hv : (0 : ℚ) < 5000 := by norm_num
    have hrate : ((100 : ℚ) + 25) / 5000 = 0.025 := by norm_num
    simp [standardize_engagement_metrics, c7dict, dGet, dlookup, dSet, setKey, asNum,
      hv, hrate]
  · simp only [get_post_engagement, c7post]
    norm_num

/-! ### Claim C4: purity of enrichment up to the `processed_at` timestamp -/

theorem dErase_cons_hit (pk : String) (pv : PyVal) (t : PDict) {k2 : String} (hp : pk = k2) :
    dErase ((pk, pv) :: t) k2 = dErase t k2 := by
  simp [dErase, List.filter_cons, hp]

theorem dErase_cons_miss (pk : String) (pv : PyVal) (t : PDict) {k2 : String} (hp : pk ≠ k2) :
    dErase ((pk, pv) :: t) k2 = (pk, pv) :: dErase t k2 := by
  simp [dErase, List.filter_cons, hp]

theorem dSet_cons_hit (pk : String) (pv v : PyVal) (t : PDict) {k : String} (hp : pk = k) :
    dSet ((pk, pv) :: t) k v = (k, v) :: t := by
  simp [dSet, setKey, hp]

theorem dSet_cons_miss (pk : String) (pv v : PyVal) (t : PDict) {k : String} (hp : pk ≠ k) :
    dSet ((pk, pv) :: t) k v = (pk, pv) :: dSet t k v := by
  simp [dSet, setKey, hp]

theorem dlookup_dErase_ne (k k2 : String) (h : k ≠ k2) :
    ∀ d : PDict, dlookup (dErase d k2) k = dlookup d k := by
  intro d
  induction d with
  | nil => simp [dErase, dlookup]
  | cons p t ih =>
    obtain ⟨pk, pv⟩ := p
    by_cases hp : pk = k2
    · rw [dErase_cons_hit pk pv t hp, ih]
      have hpk : pk ≠ k := fun hh => h (hh.symm.trans hp)
      show dlookup t k = if pk = k then some pv else dlookup t k
      rw [if_neg hpk]
    · rw [dErase_cons_miss pk pv t hp]
      show (if pk = k then some pv else dlookup (dErase t k2) k)
        = if pk = k then some pv else dlookup t k
      rw [ih]

theorem dGet_congr_erase (d1 d2 : PDict) (k2 : String)
    (h : dErase d1 k2 = dErase d2 k2) (k : String) (hk : k ≠ k2) (dflt : PyVal) :
    dGet d1 k dflt = dGet d2 k dflt := by
  unfold dGet
  rw [← dlookup_dErase_ne k k2 hk d1, ← dlookup_dErase_ne k k2 hk d2, h]

theorem dErase_dSet_ne (k k2 : String) (v : PyVal) (h : k ≠ k2) :
    ∀ d : PDict, dErase (dSet d k v) k2 = dSet (dErase d k2) k v := by
  intro d
  induction d with
  | nil =>
    show dErase [(k, v)] k2 = [(k, v)]
    rw [dErase_cons_miss k v [] h]
    rfl
  | cons p t ih =>
    obtain ⟨pk, pv⟩ := p
    by_cases hpk : pk = k
    · have hp2 : pk ≠ k2 := fun hh => h (hpk.symm.trans hh)
      rw [dSet_cons_hit pk pv v t hpk, dErase_cons_miss k v t h,
        dErase_cons_miss pk pv t hp2, dSet_cons_hit pk pv v (dErase t k2) hpk]
    · rw [dSet_cons_miss pk pv v t hpk]
      by_cases hp2 : pk = k2
      · rw [dErase_cons_hit pk pv (dSet t k v) hp2, dErase_cons_hit pk pv t hp2, ih]
      · rw [dErase_cons_miss pk pv (dSet t k v) hp2, dErase_cons_miss pk pv t hp2,
          dSet_cons_miss pk pv v (dErase t k2) hpk, ih]

theorem dErase_dSet_same (k : String) (v : PyVal) :
    ∀ d : PDict, dErase (dSet d k v) k = dErase d k := by
  intro d
  induction d with
  | nil =>
    show dErase [(k, v)] k = dErase [] k
    rw [dErase_cons_hit k v [] rfl]
  | cons p t ih =>
    obtain ⟨pk, pv⟩ := p
    by_cases hpk : pk = k
    · rw [dSet_cons_hit pk pv v t hpk, dErase_cons_hit k v t rfl, dErase_cons_hit pk pv t hpk]
    · rw [dSet_cons_miss pk pv v t hpk, dErase_cons_miss pk pv (dSet t k v) hpk,
        dErase_cons_miss pk pv t hpk, ih]

theorem standardize_frame (d1 d2 : PDict)
    (h : dErase d1 "processed_at" = dErase d2 "processed_at") :
    (standardize_engagement_metrics d1).map (fun e => dErase e "processed_at")
      = (standardize_engagement_metrics d2).map (fun e => dErase e "processed_at") := by
  have hg : ∀ (k : String) (dflt : PyVal), k ≠ "processed_at" →
      dGet d1 k dflt = dGet d2 k dflt :=
    fun k dflt hk => dGet_congr_erase d1 d2 "processed_at" h k hk dflt
  have e1 : ∀ (d : PDict) (v : PyVal),
      dErase (dSet d "total_engagement" v) "processed_at"
        = dSet (dErase d "processed_at") "total_engagement" v :=
    fun d v => dErase_dSet_ne _ _ v (by decide) d
  have e2 : ∀ (d : PDict) (v : PyVal),
      dErase (dSet d "engagement_rate" v) "processed_at"
        = dSet (dErase d "processed_at") "engagement_rate" v :=
    fun d v => dErase_dSet_ne _ _ v (by decide) d
  have e3 : ∀ (d : PDict) (v : PyVal),
      dErase (dSet d "reach_estimate" v) "processed_at"
        = dSet (dErase d "processed_at") "reach_estimate" v :=
    fun d v => dErase_dSet_ne _ _ v (by decide) d
  simp only [standardize_engagement_metrics]
  rw [hg "platform" (.vStr "") (by decide), hg "views" (.vNum 0) (by decide),
    hg "likes" (.vNum 0) (by decide), hg "comments" (.vNum 0) (by decide),
    hg "retweets" (.vNum 0) (by decide), hg "replies" (.vNum 0) (by decide),
    hg "quotes" (.vNum 0) (by decide), hg "author_followers" (.vNum 0) (by decide),
    hg "position" (.vNum 10) (by decide), hg "page" (.vNum 1) (by decide)]
  by_cases hyt : (dGet d2 "platform" (.vStr "") == PyVal.vStr "youtube") = true
  · simp only [if_pos hyt]
    cases asNum (dGet d2 "views" (.vNum 0)) with
    | none => rfl
    | some views =>
      cases asNum (dGet d2 "likes" (.vNum 0)) with
      | none => rfl
      | some likes =>
        cases asNum (dGet d2 "comments" (.vNum 0)) with
        | none => rfl
        | some comments => simp only [Option.map_some', e1, e2, e3, h]
  · simp only [if_neg hyt]
    by_cases htw : (dGet d2 "platform" (.vStr "") == PyVal.vStr "twitter") = true
    · simp only [if_pos htw]
      cases asNum (dGet d2 "retweets" (.vNum 0)) with
      | none => rfl
      | some retweets =>
        cases asNum (dGet d2 "likes" (.vNum 0)) with
        | none => rfl
        | some likes =>
          cases asNum (dGet d2 "replies" (.vNum 0)) with
          | none => rfl
          | some replies =>
            cases asNum (dGet d2 "quotes" (.vNum 0)) with
            | none => rfl
            | some quotes =>
              cases asNum (dGet d2 "author_followers" (.vNum 0)) with
              | none => rfl
              | some followers => simp only [Option.map_some', e1, e2, e3, h]
    · simp only [if_neg htw]
      by_cases hgg : (dGet d2 "platform" (.vStr "") == PyVal.vStr "google") = true
      · simp only [if_pos hgg]
        cases asNum (dGet d2 "position" (.vNum 10)) with
        | none => rfl
        | some position =>
          cases asNum (dGet d2 "page" (.vNum 1)) with
          | none => rfl
          | some page => simp only [Option.map_some', e1, e2, e3, h]
      · simp only [if_neg hgg, Option.map_some', e1, e2, e3, h]

theorem quality_frame (d1 d2 : PDict)
    (h : dErase d1 "processed_at" = dErase d2 "processed_at") :
    calculate_quality_score d1 = calculate_quality_score d2 := by
  have hg : ∀ (k : String) (dflt : PyVal), k ≠ "processed_at" →
      dGet d1 k dflt = dGet d2 k dflt :=
    fun k dflt hk => dGet_congr_erase d1 d2 "processed_at" h k hk dflt
  simp only [calculate_quality_score]
  rw [hg "word_count" (.vNum 0) (by decide), hg "engagement_rate" (.vNum 0) (by decide),
    hg "themes" (.vList []) (by decide), hg "keywords" (.vList []) (by decide),
    hg "platform" (.vStr "") (by decide), hg "position" (.vNum 10) (by decide)]

/-- Claim C4 (amended): per-post enrichment is pure up to the
`processed_at` timestamp.  With the wall clock made explicit, two runs on
identical input succeed or fail together, and on success the enriched
records agree on every field except `processed_at` (which records the
processing time). -/
theorem enrichment_pure_modulo_timestamp (d : PDict) (now1 now2 : String) :
    (process_single_post now1 d).map (fun e => dErase e "processed_at")
      = (process_single_post now2 d).map (fun e => dErase e "processed_at") := by
  have etc : ∀ (x : PDict) (v : PyVal),
      dErase (dSet x "text_content" v) "processed_at"
        = dSet (dErase x "processed_at") "text_content" v :=
    fun x v => dErase_dSet_ne _ _ v (by decide) x
  have ema : ∀ (x : PDict) (v : PyVal),
      dErase (dSet x "mentions_atomberg" v) "processed_at"
        = dSet (dErase x "processed_at") "mentions_atomberg" v :=
    fun x v => dErase_dSet_ne _ _ v (by decide) x
  have emc : ∀ (x : PDict) (v : PyVal),
      dErase (dSet x "mentions_competitors" v) "processed_at"
        = dSet (dErase x "processed_at") "mentions_competitors" v :=
    fun x v => dErase_dSet_ne _ _ v (by decide) x
  have ekw : ∀ (x : PDict) (v : PyVal),
      dErase (dSet x "keywords" v) "processed_at"
        = dSet (dErase x "processed_at") "keywords" v :=
    fun x v => dErase_dSet_ne _ _ v (by decide) x
  have eth : ∀ (x : PDict) (v : PyVal),
      dErase (dSet x "themes" v) "processed_at"
        = dSet (dErase x "processed_at") "themes" v :=
    fun x v => dErase_dSet_ne _ _ v (by decide) x
  have ecl : ∀ (x : PDict) (v : PyVal),
      dErase (dSet x "content_length" v) "processed_at"
        = dSet (dErase x "processed_at") "content_length" v :=
    fun x v => dErase_dSet_ne _ _ v (by decide) x
  have ewc : ∀ (x : PDict) (v : PyVal),
      dErase (dSet x "word_count" v) "processed_at"
        = dSet (dErase x "processed_at") "word_count" v :=
    fun x v => dErase_dSet_ne _ _ v (by decide) x
  have eqs : ∀ (x : PDict) (v : PyVal),
      dErase (dSet x "quality_score" v) "processed_at"
        = dSet (dErase x "processed_at") "quality_score" v :=
    fun x v => dErase_dSet_ne _ _ v (by decide) x
  simp only [process_single_post, process_single_post_heap, Store.read, Store.write,
    Store.alloc, List.singleton_append, List.getD_cons_zero, List.getD_cons_succ,
    List.length_cons, List.length_nil, List.set_cons_succ, List.set_cons_zero]
  cases hb : build_text_content d with
  | none => rfl
  | some cleaned =>
    dsimp only
    have h12 : dErase (dSet (dSet (dSet (dSet (dSet (dSet d
        "text_content" (.vStr (String.mk cleaned)))
        "processed_at" (.vStr now1))
        "mentions_atomberg" (.vBool (detect_brand_mentions cleaned "atomberg")))
        "mentions_competitors" (.vList (detect_competitor_mentions cleaned)))
        "keywords" (.vList (extract_keywords cleaned)))
        "themes" (.vList (identify_themes cleaned))) "processed_at"
        = dErase (dSet (dSet (dSet (dSet (dSet (dSet d
        "text_content" (.vStr (String.mk cleaned)))
        "processed_at" (.vStr now2))
        "mentions_atomberg" (.vBool (detect_brand_mentions cleaned "atomberg")))
        "mentions_competitors" (.vList (detect_competitor_mentions cleaned)))
        "keywords" (.vList (extract_keywords cleaned)))
        "themes" (.vList (identify_themes cleaned))) "processed_at" := by
      rw [eth, eth, ekw, ekw, emc, emc, ema, ema, dErase_dSet_same, dErase_dSet_same]
    have hstd := standardize_frame _ _ h12
    cases hs1 : standardize_engagement_metrics (dSet (dSet (dSet (dSet (dSet (dSet d
        "text_content" (.vStr (String.mk cleaned)))
        "processed_at" (.vStr now1))
        "mentions_atomberg" (.vBool (detect_brand_mentions cleaned "atomberg")))
        "mentions_competitors" (.vList (detect_competitor_mentions cleaned)))
        "keywords" (.vList (extract_keywords cleaned)))
        "themes" (.vList (identify_themes cleaned))) with
    | none =>
      cases hs2 : standardize_engagement_metrics (dSet (dSet (dSet (dSet (dSet (dSet d
          "text_content" (.vStr (String.mk cleaned)))
          "processed_at" (.vStr now2))
          "mentions_atomberg" (.vBool (detect_brand_mentions cleaned "atomberg")))
          "mentions_competitors" (.vList (detect_competitor_mentions cleaned)))
          "keywords" (.vList (extract_keywords cleaned)))
          "themes" (.vList (identify_themes cleaned))) with
      | none => rfl
      | some d82 =>
        rw [hs1, hs2] at hstd
        simp at hstd
    | some d81 =>
      cases hs2 : standardize_engagement_metrics (dSet (dSet (dSet (dSet (dSet (dSet d
          "text_content" (.vStr (String.mk cleaned)))
          "processed_at" (.vStr now2))
          "mentions_atomberg" (.vBool (detect_brand_mentions cleaned "atomberg")))
          "mentions_competitors" (.vList (detect_competitor_mentions cleaned)))
          "keywords" (.vList (extract_keywords cleaned)))
          "themes" (.vList (identify_themes cleaned))) with
      | none =>
        rw [hs1, hs2] at hstd
        simp at hstd
      | some d82 =>
        rw [hs1, hs2] at hstd
        simp only [Option.map_some', Option.some.injEq] at hstd
        have h10 : dErase (dSet (dSet d81 "content_length" (.vNum (cleaned.length : ℚ)))
            "word_count" (.vNum ((splitWs cleaned).length : ℚ))) "processed_at"
            = dErase (dSet (dSet d82 "content_length" (.vNum (cleaned.length : ℚ)))
            "word_count" (.vNum ((splitWs cleaned).length : ℚ))) "processed_at" := by
          rw [ewc, ewc, ecl, ecl, hstd]
        have hq := quality_frame _ _ h10
        dsimp only
        rw [hq]
        cases hqs : calculate_quality_score (dSet (dSet d82
            "content_length" (.vNum (cleaned.length : ℚ)))
            "word_count" (.vNum ((splitWs cleaned).length : ℚ))) with
        | none => rfl
        | some qs =>
          simp only [Option.map_some', Option.some.injEq, List.getD_cons_succ,
            List.getD_cons_zero]
          rw [eqs, eqs, h10]

/-- Claim C4 counterexample: enrichment is not a pure function of the post
record alone — the `processed_at` field stores the wall-clock timestamp, so
two runs on the identical post at different times produce different
enriched outputs. -/
theorem enrichment_purity_counterexample :
    (process_single_post "2025-01-01T00:00:00" c4post).map
        (fun e => dGet e "processed_at" .vNone)
      = some (.vStr "2025-01-01T00:00:00") ∧
    (process_single_post "2025-01-02T00:00:00" c4post).map
        (fun e => dGet e "processed_at" .vNone)
      = some (.vStr "2025-01-02T00:00:00") ∧
    process_single_post "2025-01-01T00:00:00" c4post
      ≠ process_single_post "2025-01-02T00:00:00" c4post := by
  have h1 : (process_single_post "2025-01-01T00:00:00" c4post).map
      (fun e => dGet e "processed_at" .vNone) = some (.vStr "2025-01-01T00:00:00") := by
    decide
  have h2 : (process_single_post "2025-01-02T00:00:00" c4post).map
      (fun e => dGet e "processed_at" .vNone) = some (.vStr "2025-01-02T00:00:00") := by
    decide
  refine ⟨h1, h2, fun hc => ?_⟩
  rw [hc] at h1
  rw [h1] at h2
  simp at h2

/-! ### Claim C2: the lexicon scorer on "excellent and quiet, not noisy" -/

/-- Claim C2 counterexample: after cleaning, the third token is `"quiet,"`
(with its trailing comma) — token-level lexicon membership misses it, so
the raw counts are positive=2, negative=0, not the claimed 3 and 0. -/
theorem sentiment_lexicon_counterexample :
    (splitWs (pyLower (sentiment_clean_text c2text))).map (fun w => String.mk w)
      = ["excellent", "and", "quiet,", "not", "noisy"] ∧
    "quiet," ∉ positive_words ∧
    "quiet" ∈ positive_words ∧
    lexCounts ((splitWs (pyLower (sentiment_clean_text c2text))).map (fun w => String.mk w))
      = (2, 0) ∧
    lexCounts ((splitWs (pyLower (sentiment_clean_text c2text))).map (fun w => String.mk w))
      ≠ (3, 0) := by
  refine ⟨by decide, by decide, by decide, by decide, by decide⟩

/-- Claim C2 (amended): on `"excellent and quiet, not noisy"` the lexicon
backend counts "excellent" as positive, does not count "quiet," (the token
keeps its comma and is not in the lexicon), flips "noisy" (negated by
"not" within the window) to positive, and returns the label `positive`
with raw counts positive=2, negative=0 — i.e. confidence 1, normalized
positive_score 1, negative_score 0 and neutral_score 3/5. -/
theorem sentiment_lexicon_amended :
    analyze_text_lexicon c2text = ⟨"positive", 1, 1, 0, 3 / 5⟩ := by
  have hne : (c2text.isEmpty || (pyStrip c2text).isEmpty) = false := by decide
  have hclean : sentiment_clean_text c2text = c2text := by decide
  have hwords : (splitWs (pyLower c2text)).map (fun w => String.mk w)
      = ["excellent", "and", "quiet,", "not", "noisy"] := by decide
  have hcnt : lexCounts ["excellent", "and", "quiet,", "not", "noisy"] = (2, 0) := by decide
  simp only [analyze_text_lexicon, hne, Bool.false_eq_true, if_false,
    analyze_with_lexicon, hclean, hwords, hcnt]
  norm_num

/-! ### Claim C8: idempotence of `_clean_text` -/

/-- Claim C8 counterexample: on `"htt#px"` the sigil pass glues the text
into `"httpx"`, which the URL pass of a second cleaning deletes entirely —
so `clean(clean(text)) ≠ clean(text)`. -/
theorem clean_idempotence_counterexample :
    clean_text ("htt#px".toList) = "httpx".toList ∧
    clean_text (clean_text ("htt#px".toList)) = [] ∧
    clean_text (clean_text ("htt#px".toList)) ≠ clean_text ("htt#px".toList) := by
  refine ⟨by decide, by decide, by decide⟩

theorem char_toNat_ofNat_valid (n : Nat) (h : n.isValidChar) : (Char.ofNat n).toNat = n := by
  unfold Char.ofNat
  rw [dif_pos h]
  unfold Char.ofNatAux Char.toNat
  simp [UInt32.toNat, BitVec.toNat_ofNatLt]

theorem toLower_idem (c : Char) : (Char.toLower c).toLower = Char.toLower c := by
  by_cases h : c.toNat ≥ 65 ∧ c.toNat ≤ 90
  · have hval : (c.toNat + 32).isValidChar := Or.inl (by omega)
    have ht : (Char.ofNat (c.toNat + 32)).toNat = c.toNat + 32 :=
      char_toNat_ofNat_valid _ hval
    have h1 : Char.toLower c = Char.ofNat (c.toNat + 32) := by
      simp only [Char.toLower]
      rw [if_pos h]
    have h2 : (Char.ofNat (c.toNat + 32)).toLower = Char.ofNat (c.toNat + 32) := by
      simp only [Char.toLower]
      rw [ht, if_neg (by omega)]
    rw [h1, h2]
  · have h1 : Char.toLower c = c := by
      simp only [Char.toLower]
      rw [if_neg h]
    rw [h1, h1]

theorem mem_ruAux (c : Char) : ∀ (b : Bool) (s : List Char), c ∈ ruAux b s → c ∈ s := by
  intro b s
  induction b, s using ruAux.induct with
  | case1 => simp [ruAux]
  | case2 c2 cs h ih =>
    intro hm
    rw [ruAux, if_pos h] at hm
    rcases List.mem_cons.mp hm with h2 | h2
    · exact h2 ▸ List.mem_cons_self _ _
    · exact List.mem_cons_of_mem _ (ih h2)
  | case3 c2 cs h ih =>
    intro hm
    rw [ruAux, if_neg h] at hm
    exact List.mem_cons_of_mem _ (ih hm)
  | case4 d rest h ih =>
    intro hm
    rw [ruAux, if_pos h] at hm
    rcases List.mem_cons.mp hm with h2 | h2
    · exact h2 ▸ List.mem_cons_self _ _
    · exact List.mem_cons_of_mem _ (ih h2)
  | case5 d rest h ih =>
    intro hm
    rw [ruAux, if_neg h] at hm
    have h3 := ih hm
    simp only [List.mem_cons]
    tauto
  | case6 d rest h ih =>
    intro hm
    rw [ruAux, if_pos h] at hm
    rcases List.mem_cons.mp hm with h2 | h2
    · exact h2 ▸ List.mem_cons_self _ _
    · exact List.mem_cons_of_mem _ (ih h2)
  | case7 d rest h ih =>
    intro hm
    rw [ruAux, if_neg h] at hm
    have h3 := ih hm
    simp only [List.mem_cons]
    tauto
  | case8 c2 cs h1 h2 ih =>
    intro hm
    rw [ruAux] at hm
    · rcases List.mem_cons.mp hm with h3 | h3
      · exact h3 ▸ List.mem_cons_self _ _
      · exact List.mem_cons_of_mem _ (ih h3)
    · exact h1
    · exact h2

theorem mem_reAux (c : Char) : ∀ (s buf : List Char), c ∈ reAux buf s → c ∈ buf ∨ c ∈ s := by
  intro s
  induction s with
  | nil =>
    intro buf hm
    simp only [reAux, emitTok] at hm
    split at hm
    · simp at hm
    · simp at hm
      exact Or.inl hm
  | cons d cs ih =>
    intro buf hm
    rw [reAux] at hm
    by_cases hd : isPySpace d
    · rw [if_pos hd] at hm
      simp only [emitTok] at hm
      split at hm
      · rcases List.mem_cons.mp hm with h2 | h2
        · exact Or.inr (h2 ▸ List.mem_cons_self _ _)
        · rcases ih [] h2 with h3 | h3
          · simp at h3
          · exact Or.inr (List.mem_cons_of_mem _ h3)
      · rcases List.mem_append.mp hm with h2 | h2
        · exact Or.inl h2
        · rcases List.mem_cons.mp h2 with h3 | h3
          · exact Or.inr (h3 ▸ List.mem_cons_self _ _)
          · rcases ih [] h3 with h4 | h4
            · simp at h4
            · exact Or.inr (List.mem_cons_of_mem _ h4)
    · rw [if_neg hd] at hm
      rcases ih (buf ++ [d]) hm with h2 | h2
      · rcases List.mem_append.mp h2 with h3 | h3
        · exact Or.inl h3
        · simp only [List.mem_singleton] at h3
          exact Or.inr (h3 ▸ List.mem_cons_self _ _)
      · exact Or.inr (List.mem_cons_of_mem _ h2)

theorem mem_stripSigils (c : Char) : ∀ s : List Char, c ∈ stripSigils s → c ∈ s := by
  intro s
  induction s with
  | nil => simp [stripSigils]
  | cons d cs ih =>
    rw [stripSigils]
    split
    · intro hm
      exact List.mem_cons_of_mem _ (ih hm)
    · intro hm
      rcases List.mem_cons.mp hm with h2 | h2
      · exact h2 ▸ List.mem_cons_self _ _
      · exact List.mem_cons_of_mem _ (ih h2)

theorem mem_collapseDoubles (m c : Char) :
    ∀ s : List Char, c ∈ collapseDoubles m s → c ∈ s := by
  intro s
  induction s with
  | nil => simp [collapseDoubles]
  | cons d cs ih =>
    simp only [collapseDoubles]
    split
    · intro hm
      exact List.mem_cons_of_mem _ (ih hm)
    · intro hm
      rcases List.mem_cons.mp hm with h2 | h2
      · exact h2 ▸ List.mem_cons_self _ _
      · exact List.mem_cons_of_mem _ (ih h2)

theorem mem_collapseDots (c : Char) : ∀ s : List Char, c ∈ collapseDots s → c ∈ s := by
  intro s
  induction s with
  | nil => simp [collapseDots]
  | cons d cs ih =>
    simp only [collapseDots]
    split
    · intro hm
      exact List.mem_cons_of_mem _ (ih hm)
    · intro hm
      rcases List.mem_cons.mp hm with h2 | h2
      · exact h2 ▸ List.mem_cons_self _ _
      · exact List.mem_cons_of_mem _ (ih h2)

theorem mem_collapseWs (c : Char) : ∀ s : List Char, c ∈ collapseWs s → c ∈ s ∨ c = ' ' := by
  intro s
  induction s with
  | nil => simp [collapseWs]
  | cons d cs ih =>
    simp only [collapseWs]
    split
    · split
      · intro hm
        rcases ih hm with h2 | h2
        · exact Or.inl (List.mem_cons_of_mem _ h2)
        · exact Or.inr h2
      · intro hm
        rcases List.mem_cons.mp hm with h2 | h2
        · exact Or.inr h2
        · rcases ih h2 with h3 | h3
          · exact Or.inl (List.mem_cons_of_mem _ h3)
          · exact Or.inr h3
    · intro hm
      rcases List.mem_cons.mp hm with h2 | h2
      · exact Or.inl (h2 ▸ List.mem_cons_self _ _)
      · rcases ih h2 with h3 | h3
        · exact Or.inl (List.mem_cons_of_mem _ h3)
        · exact Or.inr h3

theorem trimR_isPre : ∀ s : List Char, trimR s <+: s := by
  intro s
  induction s with
  | nil => simp [trimR]
  | cons d cs ih =>
    simp only [trimR]
    split
    · exact ⟨d :: cs, rfl⟩
    · rcases ih with ⟨t, ht⟩
      exact ⟨t, by rw [List.cons_append, ht]⟩

theorem mem_trimL (c : Char) (s : List Char) : c ∈ trimL s → c ∈ s :=
  fun hm => (List.dropWhile_sublist isPySpace).mem hm

theorem mem_pyStrip (c : Char) (s : List Char) : c ∈ pyStrip s → c ∈ s := by
  intro hm
  exact mem_trimL c s ((trimR_isPre (trimL s)).sublist.mem hm)

theorem mem_stripSpecial (c : Char) (s : List Char) :
    c ∈ stripSpecial s → c ∈ s ∨ c = ' ' := by
  intro hm
  rcases List.mem_map.mp hm with ⟨a, ha, hfa⟩
  by_cases hall : allowedFinal a = true
  · rw [if_pos hall] at hfa
    exact Or.inl (hfa ▸ ha)
  · rw [if_neg hall] at hfa
    exact Or.inr hfa.symm

theorem mem_collapseTrim (c : Char) (s : List Char) :
    c ∈ collapseTrim s → c ∈ s ∨ c = ' ' := by
  intro hm
  exact mem_collapseWs c s (mem_pyStrip c (collapseWs s) hm)

theorem noAdj_cons (a c : Char) (s : List Char) :
    noAdj a (c :: s) = true ↔ ((c = a → s.head? ≠ some a) ∧ noAdj a s = true) := by
  cases s with
  | nil => simp [noAdj]
  | cons d t =>
    rw [noAdj]
    simp only [Bool.and_eq_true, Bool.not_eq_eq_eq_not, Bool.not_true, List.head?_cons]
    constructor
    · rintro ⟨h1, h2⟩
      refine ⟨?_, h2⟩
      intro hc hd
      simp only [Option.some.injEq] at hd
      rw [hc, hd] at h1
      simp at h1
    · rintro ⟨h1, h2⟩
      refine ⟨?_, h2⟩
      by_cases hc : c = a
      · have hd : d ≠ a := fun he => h1 hc (by rw [he])
        simp [hd]
      · simp [hc]

theorem noAdj_tail (a c : Char) (s : List Char) (h : noAdj a (c :: s) = true) :
    noAdj a s = true :=
  ((noAdj_cons a c s).mp h).2

theorem noFourDots_cons_iff (c : Char) (s : List Char) :
    noFourDots (c :: s) = true
      ↔ (¬(c = '.' ∧ s.take 3 = ['.', '.', '.'])) ∧ noFourDots s = true := by
  rcases s with _ | ⟨d1, _ | ⟨d2, _ | ⟨d3, t⟩⟩⟩
  · simp [noFourDots, List.take]
  · simp [noFourDots, List.take]
  · simp [noFourDots, List.take]
  · rw [noFourDots]
    simp only [Bool.and_eq_true, Bool.not_eq_eq_eq_not, Bool.not_true, List.take]
    constructor
    · rintro ⟨h1, h2⟩
      refine ⟨?_, h2⟩
      rintro ⟨rfl, he⟩
      simp only [List.cons.injEq] at he
      obtain ⟨e1, e2, e3, _⟩ := he
      simp [e1, e2, e3] at h1
    · rintro ⟨h1, h2⟩
      refine ⟨?_, h2⟩
      by_cases hc : c = '.'
      · by_cases hd1 : d1 = '.'
        · by_cases hd2 : d2 = '.'
          · by_cases hd3 : d3 = '.'
            · exact absurd ⟨hc, by simp [hd1, hd2, hd3]⟩ h1
            · simp [hd3]
          · simp [hd2]
        · simp [hd1]
      · simp [hc]

theorem noFourDots_tail (c : Char) (s : List Char) (h : noFourDots (c :: s) = true) :
    noFourDots s = true :=
  ((noFourDots_cons_iff c s).mp h).2

theorem pyLower_id (s : List Char) (h : ∀ c ∈ s, Char.toLower c = c) : pyLower s = s := by
  unfold pyLower
  induction s with
  | nil => rfl
  | cons c cs ih =>
    rw [List.map_cons, h c (List.mem_cons_self c cs),
      ih (fun d hd => h d (List.mem_cons_of_mem _ hd))]

theorem ruAux_no_pattern :
    ∀ (b : Bool) (s : List Char), b = false → hasUrlPattern s = false → ruAux b s = s := by
  intro b s
  induction b, s using ruAux.induct with
  | case1 => intros; rw [ruAux]
  | case2 c cs h ih => intro hb; exact absurd hb (by simp)
  | case3 c cs h ih => intro hb; exact absurd hb (by simp)
  | case4 d rest h ih =>
    intro _ hp
    rw [hasUrlPattern, Bool.or_eq_false_iff] at hp
    rw [ruAux, if_pos h, ih rfl hp.2]
  | case5 d rest h ih =>
    intro _ hp
    rw [hasUrlPattern, Bool.or_eq_false_iff] at hp
    have hu : isUrlStart ('h' :: 't' :: 't' :: 'p' :: d :: rest) = true := by
      simp [isUrlStart, h]
    rw [hu] at hp
    exact absurd hp.1 (by simp)
  | case6 d rest h ih =>
    intro _ hp
    rw [hasUrlPattern, Bool.or_eq_false_iff] at hp
    rw [ruAux, if_pos h, ih rfl hp.2]
  | case7 d rest h ih =>
    intro _ hp
    rw [hasUrlPattern, Bool.or_eq_false_iff] at hp
    have hu : isUrlStart ('w' :: 'w' :: 'w' :: d :: rest) = true := by
      simp [isUrlStart, h]
    rw [hu] at hp
    exact absurd hp.1 (by simp)
  | case8 c cs h1 h2 ih =>
    intro _ hp
    rw [hasUrlPattern, Bool.or_eq_false_iff] at hp
    rw [ruAux]
    · rw [ih rfl hp.2]
    · exact h1
    · exact h2

theorem removeUrls_id (s : List Char) (h : hasUrlPattern s = false) : removeUrls s = s :=
  ruAux_no_pattern false s rfl h

theorem hasAt_false (t : List Char) (h : ∀ c ∈ t, c ≠ '@') : hasAtWithSucc t = false := by
  induction t with
  | nil => rfl
  | cons c cs ih =>
    cases cs with
    | nil => rfl
    | cons d ds =>
      rw [hasAtWithSucc]
      have hc : (c == '@') = false := by
        simp [h c (List.mem_cons_self _ _)]
      rw [hc, Bool.false_or]
      exact ih (fun x hx => h x (List.mem_cons_of_mem _ hx))

theorem tokenIsEmail_false (t : List Char) (h : ∀ c ∈ t, c ≠ '@') :
    tokenIsEmail t = false := by
  cases t with
  | nil => rfl
  | cons c cs =>
    rw [tokenIsEmail]
    exact hasAt_false cs (fun x hx => h x (List.mem_cons_of_mem _ hx))

theorem reAux_id : ∀ (s buf : List Char), (∀ c ∈ buf, c ≠ '@') → (∀ c ∈ s, c ≠ '@') →
    reAux buf s = buf ++ s := by
  intro s
  induction s with
  | nil =>
    intro buf hb _
    simp only [reAux, emitTok, tokenIsEmail_false buf hb]
    simp
  | cons d cs ih =>
    intro buf hb hs
    rw [reAux]
    by_cases hd : isPySpace d
    · rw [if_pos hd]
      simp only [emitTok, tokenIsEmail_false buf hb]
      rw [ih [] (by simp) (fun c hc => hs c (List.mem_cons_of_mem _ hc))]
      simp
    · rw [if_neg hd]
      have hbd : ∀ c ∈ buf ++ [d], c ≠ '@' := by
        intro c hc
        rcases List.mem_append.mp hc with h2 | h2
        · exact hb c h2
        · simp only [List.mem_singleton] at h2
          exact h2 ▸ hs d (List.mem_cons_self _ _)
      rw [ih (buf ++ [d]) hbd (fun c hc => hs c (List.mem_cons_of_mem _ hc))]
      simp

theorem removeEmails_id (s : List Char) (h : ∀ c ∈ s, c ≠ '@') : removeEmails s = s := by
  have := reAux_id s [] (by simp) h
  simpa [removeEmails] using this

theorem stripSigils_id (s : List Char) (h : ∀ c ∈ s, c ≠ '@' ∧ c ≠ '#') :
    stripSigils s = s := by
  induction s with
  | nil => rfl
  | cons d cs ih =>
    rw [stripSigils]
    have hd := h d (List.mem_cons_self _ _)
    have hcond : ((d == '@' || d == '#') && headIsWord cs) = false := by
      simp [hd.1, hd.2]
    rw [hcond]
    simp only [Bool.false_eq_true, if_false]
    rw [ih (fun c hc => h c (List.mem_cons_of_mem _ hc))]

theorem collapseDoubles_id (m : Char) :
    ∀ s : List Char, noAdj m s = true → collapseDoubles m s = s := by
  intro s
  induction s with
  | nil => intro _; rfl
  | cons c cs ih =>
    intro h
    obtain ⟨h1, h2⟩ := (noAdj_cons m c cs).mp h
    simp only [collapseDoubles]
    rw [ih h2]
    by_cases hc : c = m
    · have hcond : (c == m && (cs.head? == some m)) = false := by
        simp [h1 hc]
      rw [hcond]
      simp
    · have hcond : (c == m && (cs.head? == some m)) = false := by
        simp [hc]
      rw [hcond]
      simp

theorem collapseDots_id : ∀ s : List Char, noFourDots s = true → collapseDots s = s := by
  intro s
  induction s with
  | nil => intro _; rfl
  | cons c cs ih =>
    intro h
    obtain ⟨h1, h2⟩ := (noFourDots_cons_iff c cs).mp h
    simp only [collapseDots]
    rw [ih h2]
    have hcond : (c == '.' && (cs.take 3 == ['.', '.', '.'])) = false := by
      by_cases hc : c = '.'
      · have ht : cs.take 3 ≠ ['.', '.', '.'] := fun he => h1 ⟨hc, he⟩
        simp [ht]
      · simp [hc]
    rw [hcond]
    simp

theorem collapseWs_id : ∀ s : List Char, spacesArePlain s = true → noAdj ' ' s = true →
    collapseWs s = s := by
  intro s
  induction s with
  | nil => intro _ _; rfl
  | cons c cs ih =>
    intro hsp hadj
    obtain ⟨h1, h2⟩ := (noAdj_cons ' ' c cs).mp hadj
    simp only [spacesArePlain, List.all_cons, Bool.and_eq_true] at hsp
    simp only [collapseWs]
    rw [ih (by simp [spacesArePlain, hsp.2]) h2]
    by_cases hc : isPySpace c
    · have hc2 : c = ' ' := by
        have := hsp.1
        simp only [hc, Bool.not_true, Bool.false_or, beq_iff_eq] at this
        exact this
      have hcond : (cs.head? == some ' ') = false := by
        simp [h1 hc2]
      rw [if_pos hc, hcond]
      simp [hc2]
    · rw [if_neg hc]

theorem trimL_id (s : List Char) (h : headNotWs s = true) : trimL s = s := by
  cases s with
  | nil => rfl
  | cons c cs =>
    simp only [headNotWs, Bool.not_eq_eq_eq_not, Bool.not_true] at h
    simp [trimL, List.dropWhile_cons, h]

theorem trimR_id : ∀ s : List Char, lastNotWs s = true → trimR s = s := by
  intro s
  induction s with
  | nil => intro _; rfl
  | cons c cs ih =>
    intro h
    cases cs with
    | nil =>
      simp only [lastNotWs, Bool.not_eq_eq_eq_not, Bool.not_true] at h
      simp [trimR, h]
    | cons d t =>
      have h2 : lastNotWs (d :: t) = true := h
      rw [trimR, ih h2]
      simp

theorem stripSpecial_id (s : List Char) (h : ∀ c ∈ s, allowedFinal c = true) :
    stripSpecial s = s := by
  unfold stripSpecial
  induction s with
  | nil => rfl
  | cons c cs ih =>
    rw [List.map_cons, if_pos (h c (List.mem_cons_self c cs)),
      ih (fun d hd => h d (List.mem_cons_of_mem _ hd))]

theorem collapseTrim_id (s : List Char) (h1 : spacesArePlain s = true)
    (h2 : noAdj ' ' s = true) (h3 : headNotWs s = true) (h4 : lastNotWs s = true) :
    collapseTrim s = s := by
  unfold collapseTrim pyStrip
  rw [collapseWs_id s h1 h2, trimL_id s h3, trimR_id s h4]

theorem trimL_cons (c : Char) (cs : List Char) :
    trimL (c :: cs) = if isPySpace c then trimL cs else c :: cs := by
  simp [trimL, List.dropWhile_cons]

theorem take3_shape (l : List Char) (h : l.take 3 = ['.', '.', '.']) :
    ∃ w, l = '.' :: '.' :: '.' :: w := by
  rcases l with _ | ⟨a, _ | ⟨b, _ | ⟨c, t⟩⟩⟩ <;> simp [List.take] at h
  obtain ⟨h1, h2, h3⟩ := h
  exact ⟨t, by rw [h1, h2, h3]⟩

theorem allowed_map_eq (a x : Char) (ha : a ≠ ' ')
    (h : (if allowedFinal x then x else ' ') = a) : x = a := by
  by_cases hal : allowedFinal x = true
  · rw [if_pos hal] at h
    exact h
  · rw [if_neg hal] at h
    exact absurd h.symm ha

theorem plain_subset (x y : List Char) (hx : spacesArePlain x = true)
    (hsub : ∀ c ∈ y, c ∈ x) : spacesArePlain y = true := by
  simp only [spacesArePlain, List.all_eq_true] at hx ⊢
  exact fun c hc => hx c (hsub c hc)

theorem stripSpecial_allowed (c : Char) (s : List Char) (h : c ∈ stripSpecial s) :
    allowedFinal c = true := by
  rcases List.mem_map.mp h with ⟨a, _, hfa⟩
  by_cases hal : allowedFinal a = true
  · rw [if_pos hal] at hfa
    rw [hfa] at hal
    exact hal
  · rw [if_neg hal] at hfa
    rw [← hfa]
    decide

theorem collapseDoubles_head (m : Char) (s : List Char) (x : Char)
    (h : (collapseDoubles m s).head? = some x) : x = m ∨ s.head? = some x := by
  cases s with
  | nil => exact absurd h (by simp [collapseDoubles])
  | cons c cs =>
    simp only [collapseDoubles] at h
    by_cases hcond : (c == m && ((collapseDoubles m cs).head? == some m)) = true
    · rw [if_pos hcond] at h
      have h2 : ((collapseDoubles m cs).head? == some m) = true := by
        simp only [Bool.and_eq_true] at hcond
        exact hcond.2
      rw [h] at h2
      simp only [beq_iff_eq, Option.some.injEq] at h2
      exact Or.inl h2
    · rw [if_neg hcond] at h
      simp only [List.head?_cons, Option.some.injEq] at h
      exact Or.inr (by simp [h])

theorem collapseDots_head (s : List Char) (x : Char)
    (h : (collapseDots s).head? = some x) : x = '.' ∨ s.head? = some x := by
  cases s with
  | nil => exact absurd h (by simp [collapseDots])
  | cons c cs =>
    simp only [collapseDots] at h
    by_cases hcond : (c == '.' && ((collapseDots cs).take 3 == ['.', '.', '.'])) = true
    · rw [if_pos hcond] at h
      have h2 : ((collapseDots cs).take 3 == ['.', '.', '.']) = true := by
        simp only [Bool.and_eq_true] at hcond
        exact hcond.2
      simp only [beq_iff_eq] at h2
      obtain ⟨w, hw⟩ := take3_shape (collapseDots cs) h2
      rw [hw] at h
      simp only [List.head?_cons, Option.some.injEq] at h
      exact Or.inl h.symm
    · rw [if_neg hcond] at h
      simp only [List.head?_cons, Option.some.injEq] at h
      exact Or.inr (by simp [h])

theorem collapseWs_head (s : List Char) (x : Char)
    (h : (collapseWs s).head? = some x) : x = ' ' ∨ s.head? = some x := by
  cases s with
  | nil => exact absurd h (by simp [collapseWs])
  | cons c cs =>
    simp only [collapseWs] at h
    by_cases hc : isPySpace c = true
    · rw [if_pos hc] at h
      by_cases hh : ((collapseWs cs).head? == some ' ') = true
      · rw [if_pos hh] at h
        rw [h] at hh
        simp only [beq_iff_eq, Option.some.injEq] at hh
        exact Or.inl hh
      · rw [if_neg hh] at h
        simp only [List.head?_cons, Option.some.injEq] at h
        exact Or.inl h.symm
    · rw [if_neg hc] at h
      simp only [List.head?_cons, Option.some.injEq] at h
      exact Or.inr (by simp [h])

theorem trimR_cons_eq (s : List Char) (x : Char) (w : List Char)
    (h : trimR s = x :: w) : ∃ s1, s = x :: s1 ∧ w = trimR s1 := by
  cases s with
  | nil => exact absurd h (by simp [trimR])
  | cons c cs =>
    rw [trimR] at h
    by_cases hc : ((trimR cs).isEmpty && isPySpace c) = true
    · rw [if_pos hc] at h
      exact absurd h (by simp)
    · rw [if_neg hc] at h
      simp only [List.cons.injEq] at h
      exact ⟨cs, by rw [h.1], h.2.symm⟩

theorem collapseWs_cons_dot : ∀ (z w : List Char), collapseWs z = '.' :: w →
    ∃ z1, z = '.' :: z1 ∧ w = collapseWs z1 := by
  intro z w h
  cases z with
  | nil => exact absurd h (by simp [collapseWs])
  | cons c cs =>
    simp only [collapseWs] at h
    by_cases hc : isPySpace c = true
    · rw [if_pos hc] at h
      by_cases hh : ((collapseWs cs).head? == some ' ') = true
      · rw [if_pos hh] at h
        rw [h] at hh
        simp at hh
      · rw [if_neg hh] at h
        simp at h
    · rw [if_neg hc] at h
      simp only [List.cons.injEq] at h
      exact ⟨cs, by rw [h.1], h.2.symm⟩

theorem collapseDoubles_noAdj (m : Char) :
    ∀ s : List Char, noAdj m (collapseDoubles m s) = true := by
  intro s
  induction s with
  | nil => rfl
  | cons c cs ih =>
    simp only [collapseDoubles]
    by_cases hcond : (c == m && ((collapseDoubles m cs).head? == some m)) = true
    · rw [if_pos hcond]
      exact ih
    · rw [if_neg hcond]
      refine (noAdj_cons m c (collapseDoubles m cs)).mpr ⟨?_, ih⟩
      intro hcm hd
      apply hcond
      simp only [Bool.and_eq_true, beq_iff_eq]
      exact ⟨hcm, by rw [hd]⟩

theorem collapseDots_noFour : ∀ s : List Char, noFourDots (collapseDots s) = true := by
  intro s
  induction s with
  | nil => rfl
  | cons c cs ih =>
    simp only [collapseDots]
    by_cases hcond : (c == '.' && ((collapseDots cs).take 3 == ['.', '.', '.'])) = true
    · rw [if_pos hcond]
      exact ih
    · rw [if_neg hcond]
      refine (noFourDots_cons_iff c (collapseDots cs)).mpr ⟨?_, ih⟩
      rintro ⟨hcd, ht⟩
      apply hcond
      simp only [Bool.and_eq_true, beq_iff_eq]
      exact ⟨hcd, ht⟩

theorem collapseWs_plain : ∀ s : List Char, spacesArePlain (collapseWs s) = true := by
  intro s
  induction s with
  | nil => rfl
  | cons c cs ih =>
    simp only [collapseWs]
    by_cases hc : isPySpace c = true
    · rw [if_pos hc]
      by_cases hh : ((collapseWs cs).head? == some ' ') = true
      · rw [if_pos hh]
        exact ih
      · rw [if_neg hh]
        simp only [spacesArePlain, List.all_cons, Bool.and_eq_true]
        refine ⟨by decide, ?_⟩
        simpa [spacesArePlain] using ih
    · rw [if_neg hc]
      simp only [spacesArePlain, List.all_cons, Bool.and_eq_true]
      refine ⟨by simp [hc], ?_⟩
      simpa [spacesArePlain] using ih

theorem collapseWs_noAdjSpace : ∀ s : List Char, noAdj ' ' (collapseWs s) = true := by
  intro s
  induction s with
  | nil => rfl
  | cons c cs ih =>
    simp only [collapseWs]
    by_cases hc : isPySpace c = true
    · rw [if_pos hc]
      by_cases hh : ((collapseWs cs).head? == some ' ') = true
      · rw [if_pos hh]
        exact ih
      · rw [if_neg hh]
        refine (noAdj_cons ' ' ' ' (collapseWs cs)).mpr ⟨?_, ih⟩
        intro _ hd
        apply hh
        simp [hd]
    · rw [if_neg hc]
      refine (noAdj_cons ' ' c (collapseWs cs)).mpr ⟨?_, ih⟩
      intro hcs _
      rw [hcs] at hc
      exact hc (by decide)

theorem collapseDoubles_pres_noAdj (m a : Char) (ham : a ≠ m) :
    ∀ s, noAdj a s = true → noAdj a (collapseDoubles m s) = true := by
  intro s
  induction s with
  | nil => intro _; rfl
  | cons c cs ih =>
    intro h
    have ihr := ih (noAdj_tail a c cs h)
    simp only [collapseDoubles]
    by_cases hcond : (c == m && ((collapseDoubles m cs).head? == some m)) = true
    · rw [if_pos hcond]
      exact ihr
    · rw [if_neg hcond]
      refine (noAdj_cons a c (collapseDoubles m cs)).mpr ⟨?_, ihr⟩
      intro hca hd
      cases hd2 : (collapseDoubles m cs).head? with
      | none => rw [hd2] at hd; exact absurd hd (by simp)
      | some x =>
        rw [hd2] at hd
        simp only [Option.some.injEq] at hd
        rcases collapseDoubles_head m cs x hd2 with hx | hx
        · exact ham (hd.symm.trans hx)
        · have h1 := ((noAdj_cons a c cs).mp h).1 hca
          exact h1 (hd ▸ hx)

theorem collapseDots_pres_noAdj (a : Char) (ha : a ≠ '.') :
    ∀ s, noAdj a s = true → noAdj a (collapseDots s) = true := by
  intro s
  induction s with
  | nil => intro _; rfl
  | cons c cs ih =>
    intro h
    have ihr := ih (noAdj_tail a c cs h)
    simp only [collapseDots]
    by_cases hcond : (c == '.' && ((collapseDots cs).take 3 == ['.', '.', '.'])) = true
    · rw [if_pos hcond]
      exact ihr
    · rw [if_neg hcond]
      refine (noAdj_cons a c (collapseDots cs)).mpr ⟨?_, ihr⟩
      intro hca hd
      cases hd2 : (collapseDots cs).head? with
      | none => rw [hd2] at hd; exact absurd hd (by simp)
      | some x =>
        rw [hd2] at hd
        simp only [Option.some.injEq] at hd
        rcases collapseDots_head cs x hd2 with hx | hx
        · exact ha (hd.symm.trans hx)
        · have h1 := ((noAdj_cons a c cs).mp h).1 hca
          exact h1 (hd ▸ hx)

theorem collapseWs_pres_noAdj (a : Char) (ha : a ≠ ' ') :
    ∀ s, noAdj a s = true → noAdj a (collapseWs s) = true := by
  intro s
  induction s with
  | nil => intro _; rfl
  | cons c cs ih =>
    intro h
    have ihr := ih (noAdj_tail a c cs h)
    simp only [collapseWs]
    by_cases hc : isPySpace c = true
    · rw [if_pos hc]
      by_cases hh : ((collapseWs cs).head? == some ' ') = true
      · rw [if_pos hh]
        exact ihr
      · rw [if_neg hh]
        refine (noAdj_cons a ' ' (collapseWs cs)).mpr ⟨?_, ihr⟩
        intro hsa _
        exact ha hsa.symm
    · rw [if_neg hc]
      refine (noAdj_cons a c (collapseWs cs)).mpr ⟨?_, ihr⟩
      intro hca hd
      cases hd2 : (collapseWs cs).head? with
      | none => rw [hd2] at hd; exact absurd hd (by simp)
      | some x =>
        rw [hd2] at hd
        simp only [Option.some.injEq] at hd
        rcases collapseWs_head cs x hd2 with hx | hx
        · exact ha (hd.symm.trans hx)
        · have h1 := ((noAdj_cons a c cs).mp h).1 hca
          exact h1 (hd ▸ hx)

theorem collapseWs_pres_noFour : ∀ s, noFourDots s = true →
    noFourDots (collapseWs s) = true := by
  intro s
  induction s with
  | nil => intro _; rfl
  | cons c cs ih =>
    intro h
    have ihr := ih (noFourDots_tail c cs h)
    simp only [collapseWs]
    by_cases hc : isPySpace c = true
    · rw [if_pos hc]
      by_cases hh : ((collapseWs cs).head? == some ' ') = true
      · rw [if_pos hh]
        exact ihr
      · rw [if_neg hh]
        refine (noFourDots_cons_iff ' ' (collapseWs cs)).mpr ⟨?_, ihr⟩
        rintro ⟨hsd, _⟩
        exact absurd hsd (by decide)
    · rw [if_neg hc]
      refine (noFourDots_cons_iff c (collapseWs cs)).mpr ⟨?_, ihr⟩
      rintro ⟨rfl, ht⟩
      obtain ⟨w, hw⟩ := take3_shape (collapseWs cs) ht
      obtain ⟨z1, hz1, hw1⟩ := collapseWs_cons_dot cs ('.' :: '.' :: w) hw
      obtain ⟨z2, hz2, hw2⟩ := collapseWs_cons_dot z1 ('.' :: w) hw1.symm
      obtain ⟨z3, hz3, _⟩ := collapseWs_cons_dot z2 w hw2.symm
      have h1 := ((noFourDots_cons_iff '.' cs).mp h).1
      exact h1 ⟨rfl, by rw [hz1, hz2, hz3]; simp [List.take]⟩

theorem trimL_pres_noAdj (a : Char) : ∀ s, noAdj a s = true →
    noAdj a (trimL s) = true := by
  intro s
  induction s with
  | nil => intro h; exact h
  | cons c cs ih =>
    intro h
    rw [trimL_cons]
    by_cases hc : isPySpace c = true
    · rw [if_pos hc]
      exact ih (noAdj_tail a c cs h)
    · rw [if_neg hc]
      exact h

theorem trimL_pres_noFour : ∀ s, noFourDots s = true →
    noFourDots (trimL s) = true := by
  intro s
  induction s with
  | nil => intro h; exact h
  | cons c cs ih =>
    intro h
    rw [trimL_cons]
    by_cases hc : isPySpace c = true
    · rw [if_pos hc]
      exact ih (noFourDots_tail c cs h)
    · rw [if_neg hc]
      exact h

theorem trimR_pres_noAdj (a : Char) : ∀ s, noAdj a s = true →
    noAdj a (trimR s) = true := by
  intro s
  induction s with
  | nil => intro _; rfl
  | cons c cs ih =>
    intro h
    rw [trimR]
    by_cases hc : ((trimR cs).isEmpty && isPySpace c) = true
    · rw [if_pos hc]
      rfl
    · rw [if_neg hc]
      refine (noAdj_cons a c (trimR cs)).mpr ⟨?_, ih (noAdj_tail a c cs h)⟩
      intro hca hhd
      cases htr : trimR cs with
      | nil => rw [htr] at hhd; exact absurd hhd (by simp)
      | cons x w =>
        rw [htr] at hhd
        simp only [List.head?_cons, Option.some.injEq] at hhd
        obtain ⟨s1, hs1, _⟩ := trimR_cons_eq cs x w htr
        have h1 := ((noAdj_cons a c cs).mp h).1 hca
        rw [hs1] at h1
        simp only [List.head?_cons] at h1
        exact h1 (by rw [hhd])

theorem trimR_pres_noFour : ∀ s, noFourDots s = true →
    noFourDots (trimR s) = true := by
  intro s
  induction s with
  | nil => intro _; rfl
  | cons c cs ih =>
    intro h
    rw [trimR]
    by_cases hc : ((trimR cs).isEmpty && isPySpace c) = true
    · rw [if_pos hc]
      rfl
    · rw [if_neg hc]
      refine (noFourDots_cons_iff c (trimR cs)).mpr ⟨?_, ih (noFourDots_tail c cs h)⟩
      rintro ⟨rfl, ht⟩
      obtain ⟨w, hw⟩ := take3_shape (trimR cs) ht
      obtain ⟨s1, hs1, hw1⟩ := trimR_cons_eq cs '.' ('.' :: '.' :: w) hw
      obtain ⟨s2, hs2, hw2⟩ := trimR_cons_eq s1 '.' ('.' :: w) hw1.symm
      obtain ⟨s3, hs3, _⟩ := trimR_cons_eq s2 '.' w hw2.symm
      have h1 := ((noFourDots_cons_iff '.' cs).mp h).1
      exact h1 ⟨rfl, by rw [hs1, hs2, hs3]; simp [List.take]⟩

theorem stripSpecial_pres_noAdj (a : Char) (ha : a ≠ ' ') :
    ∀ s, noAdj a s = true → noAdj a (stripSpecial s) = true := by
  intro s
  induction s with
  | nil => intro _; rfl
  | cons c cs ih =>
    intro h
    show noAdj a ((if allowedFinal c then c else ' ') :: stripSpecial cs) = true
    refine (noAdj_cons a _ (stripSpecial cs)).mpr ⟨?_, ih (noAdj_tail a c cs h)⟩
    intro hfc hd
    have hca : c = a := allowed_map_eq a c ha hfc
    cases cs with
    | nil => exact absurd hd (by simp [stripSpecial])
    | cons e cs1 =>
      have he : stripSpecial (e :: cs1)
          = (if allowedFinal e then e else ' ') :: stripSpecial cs1 := rfl
      rw [he] at hd
      simp only [List.head?_cons, Option.some.injEq] at hd
      have hea : e = a := allowed_map_eq a e ha hd
      have h1 := ((noAdj_cons a c (e :: cs1)).mp h).1 hca
      simp only [List.head?_cons] at h1
      exact h1 (by rw [hea])

theorem stripSpecial_pres_noFour : ∀ s, noFourDots s = true →
    noFourDots (stripSpecial s) = true := by
  intro s
  induction s with
  | nil => intro _; rfl
  | cons c cs ih =>
    intro h
    show noFourDots ((if allowedFinal c then c else ' ') :: stripSpecial cs) = true
    refine (noFourDots_cons_iff _ (stripSpecial cs)).mpr ⟨?_, ih (noFourDots_tail c cs h)⟩
    rintro ⟨hfc, ht⟩
    have hcd : c = '.' := allowed_map_eq '.' c (by decide) hfc
    have ht2 : (cs.take 3).map (fun x => if allowedFinal x then x else ' ')
        = ['.', '.', '.'] := by
      rw [List.map_take]
      exact ht
    rcases hl : cs.take 3 with _ | ⟨x, _ | ⟨y, _ | ⟨z, t⟩⟩⟩
    · rw [hl] at ht2
      exact absurd ht2 (by simp)
    · rw [hl] at ht2
      exact absurd ht2 (by simp)
    · rw [hl] at ht2
      exact absurd ht2 (by simp)
    rw [hl] at ht2
    simp only [List.map_cons, List.cons.injEq] at ht2
    obtain ⟨hx, hy, hz, hmt⟩ := ht2
    have hxd : x = '.' := allowed_map_eq '.' x (by decide) hx
    have hyd : y = '.' := allowed_map_eq '.' y (by decide) hy
    have hzd : z = '.' := allowed_map_eq '.' z (by decide) hz
    have h1 := ((noFourDots_cons_iff '.' cs).mp (hcd ▸ h)).1
    refine h1 ⟨rfl, ?_⟩
    rw [hl, hxd, hyd, hzd]
    have : t = [] := by
      have hlen : (cs.take 3).length ≤ 3 := List.length_take_le 3 cs
      rw [hl] at hlen
      simp only [List.length_cons] at hlen
      have ht0 : t.length = 0 := by omega
      exact List.eq_nil_of_length_eq_zero ht0
    rw [this]

theorem trimL_headNotWs : ∀ z : List Char, headNotWs (trimL z) = true := by
  intro z
  induction z with
  | nil => rfl
  | cons c cs ih =>
    rw [trimL_cons]
    by_cases hc : isPySpace c = true
    · rw [if_pos hc]
      exact ih
    · rw [if_neg hc]
      simp [headNotWs, hc]

theorem trimR_pres_headNotWs (z : List Char) (h : headNotWs z = true) :
    headNotWs (trimR z) = true := by
  cases hz : trimR z with
  | nil => rfl
  | cons x w =>
    obtain ⟨z1, hz1, _⟩ := trimR_cons_eq z x w hz
    rw [hz1] at h
    exact h

theorem trimR_lastNotWs : ∀ z : List Char, lastNotWs (trimR z) = true := by
  intro z
  induction z with
  | nil => rfl
  | cons c cs ih =>
    rw [trimR]
    by_cases hc : ((trimR cs).isEmpty && isPySpace c) = true
    · rw [if_pos hc]
      rfl
    · rw [if_neg hc]
      cases htr : trimR cs with
      | nil =>
        rw [htr] at hc
        simp only [List.isEmpty_nil, Bool.true_and] at hc
        simp [lastNotWs, hc]
      | cons x w =>
        rw [htr] at ih
        exact ih

theorem collapseTrim_plain (x : List Char) : spacesArePlain (collapseTrim x) = true :=
  plain_subset (collapseWs x) (collapseTrim x) (collapseWs_plain x)
    (fun c hc => mem_pyStrip c (collapseWs x) hc)

theorem collapseTrim_noAdjSpace (x : List Char) : noAdj ' ' (collapseTrim x) = true :=
  trimR_pres_noAdj ' ' (trimL (collapseWs x))
    (trimL_pres_noAdj ' ' (collapseWs x) (collapseWs_noAdjSpace x))

theorem collapseTrim_headNotWs (x : List Char) : headNotWs (collapseTrim x) = true :=
  trimR_pres_headNotWs (trimL (collapseWs x)) (trimL_headNotWs (collapseWs x))

theorem collapseTrim_lastNotWs (x : List Char) : lastNotWs (collapseTrim x) = true :=
  trimR_lastNotWs (trimL (collapseWs x))

theorem collapseTrim_pres_noAdj (a : Char) (ha : a ≠ ' ') (x : List Char)
    (h : noAdj a x = true) : noAdj a (collapseTrim x) = true :=
  trimR_pres_noAdj a (trimL (collapseWs x))
    (trimL_pres_noAdj a (collapseWs x) (collapseWs_pres_noAdj a ha x h))

theorem collapseTrim_pres_noFour (x : List Char) (h : noFourDots x = true) :
    noFourDots (collapseTrim x) = true :=
  trimR_pres_noFour (trimL (collapseWs x))
    (trimL_pres_noFour (collapseWs x) (collapseWs_pres_noFour x h))

theorem clean_text_lowercase (t : List Char) :
    ∀ c ∈ clean_text t, Char.toLower c = c := by
  intro c hc
  rw [clean_text] at hc
  rcases mem_collapseTrim c _ hc with hc | rfl
  · rcases mem_stripSpecial c _ hc with hc | rfl
    · rcases mem_collapseTrim c _ hc with hc | rfl
      · have hc2 := mem_collapseDots c _ hc
        have hc3 := mem_collapseDoubles '?' c _ hc2
        have hc4 := mem_collapseDoubles '!' c _ hc3
        have hc5 := mem_stripSigils c _ hc4
        rw [removeEmails] at hc5
        rcases mem_reAux c _ [] hc5 with h0 | hc6
        · exact absurd h0 (List.not_mem_nil c)
        · rw [removeUrls] at hc6
          have hc7 := mem_ruAux c false _ hc6
          rcases List.mem_map.mp hc7 with ⟨a, _, rfl⟩
          exact toLower_idem a
      · decide
    · decide
  · decide

/-- C8 (amended): `_clean_text` is idempotent on every input whose cleaned
form contains no residual `http`/`www` URL-pattern start.  (Full idempotence
fails: the URL pass can manufacture a fresh pattern, see the
counterexample.)  The cleaned text is lower-case, free of `@`/`#`, has no
doubled `!`/`?`, no run of four dots, single plain spaces only and no
leading/trailing whitespace, and every character survives the final
character-class pass — so each stage of a second run is the identity. -/
theorem clean_idempotent_no_url (t : List Char)
    (h : hasUrlPattern (clean_text t) = false) :
    clean_text (clean_text t) = clean_text t := by
  have hlower := clean_text_lowercase t
  have hadjB : noAdj '!' (clean_text t) = true :=
    collapseTrim_pres_noAdj '!' (by decide) _
      (stripSpecial_pres_noAdj '!' (by decide) _
        (collapseTrim_pres_noAdj '!' (by decide) _
          (collapseDots_pres_noAdj '!' (by decide) _
            (collapseDoubles_pres_noAdj '?' '!' (by decide) _
              (collapseDoubles_noAdj '!'
                (stripSigils (removeEmails (removeUrls (pyLower t)))))))))
  have hadjQ : noAdj '?' (clean_text t) = true :=
    collapseTrim_pres_noAdj '?' (by decide) _
      (stripSpecial_pres_noAdj '?' (by decide) _
        (collapseTrim_pres_noAdj '?' (by decide) _
          (collapseDots_pres_noAdj '?' (by decide) _
            (collapseDoubles_noAdj '?'
              (collapseDoubles '!'
                (stripSigils (removeEmails (removeUrls (pyLower t)))))))))
  have hdots : noFourDots (clean_text t) = true :=
    collapseTrim_pres_noFour _
      (stripSpecial_pres_noFour _
        (collapseTrim_pres_noFour _
          (collapseDots_noFour
            (collapseDoubles '?' (collapseDoubles '!'
              (stripSigils (removeEmails (removeUrls (pyLower t)))))))))
  have hplain : spacesArePlain (clean_text t) = true :=
    collapseTrim_plain _
  have hadjS : noAdj ' ' (clean_text t) = true :=
    collapseTrim_noAdjSpace _
  have hhead : headNotWs (clean_text t) = true :=
    collapseTrim_headNotWs _
  have hlast : lastNotWs (clean_text t) = true :=
    collapseTrim_lastNotWs _
  have hallow : ∀ c ∈ clean_text t, allowedFinal c = true := by
    intro c hc
    rw [clean_text] at hc
    rcases mem_collapseTrim c _ hc with hc2 | rfl
    · exact stripSpecial_allowed c _ hc2
    · decide
  have hnoat : ∀ c ∈ clean_text t, c ≠ '@' ∧ c ≠ '#' := by
    intro c hc
    have ha := hallow c hc
    constructor
    · intro he
      rw [he] at ha
      exact absurd ha (by decide)
    · intro he
      rw [he] at ha
      exact absurd ha (by decide)
  set s := clean_text t with hs
  rw [clean_text, pyLower_id s hlower, removeUrls_id s h,
    removeEmails_id s (fun c hc => (hnoat c hc).1), stripSigils_id s hnoat,
    collapseDoubles_id '!' s hadjB, collapseDoubles_id '?' s hadjQ,
    collapseDots_id s hdots,
    collapseTrim_id s hplain hadjS hhead hlast,
    stripSpecial_id s hallow,
    collapseTrim_id s hplain hadjS hhead hlast]

theorem clean_idempotent_no_url_witness :
    hasUrlPattern (clean_text ("Great FAN!!").toList) = false ∧
      clean_text (clean_text ("Great FAN!!").toList)
        = clean_text ("Great FAN!!").toList :=
  ⟨by decide, clean_idempotent_no_url ("Great FAN!!").toList (by decide)⟩
